import Mathlib

/-!
A shallow embedding of the comment-deduplication / spam-detection core of the
youtube-creator-tools repository (`src/services/comment_processor.py` and
`src/services/url_spam_detector.py`), with theorems settling the specification
claims about it.

Modelling conventions:
* Python `str` is modelled by `String` / `List Char`.
* Python `float` arithmetic is modelled by exact rational arithmetic (`ℚ`);
  Python `int(x)` on a nonnegative float is truncation, modelled by `Rat.floor`.
* Comment records (Python dicts) are modelled by a structure with
  `Option`-typed fields; `d[k]` is a KeyError-raising access and `d.get(k, v)`
  a defaulted access.  Functions performing raising accesses live in
  `Except PyErr`.
* `re` patterns are compiled by hand into executable Lean functions.  Python's
  Unicode-aware `\w` and `\s` classes are modelled on the character repertoire
  the code base exercises: ASCII alphanumerics, underscore and the Hangul
  Jamo/vowel/syllable ranges for `\w`; ASCII whitespace for `\s`.
  `str.lower`/`str.upper` are modelled by the ASCII case maps.
* The MD5 digest used as a grouping key is modelled as an injective digest
  function of the normalized text (the identity); the code compares digests
  only for equality.
* Python `set` iteration order is unspecified; `list(set(...))` is modelled
  canonically as first-insertion-order deduplication.  No claim depends on it.
-/

namespace YTC

/-! ## Character classes and Python string primitives -/

/-- Model of `str.lower` on one character (ASCII case map). -/
def pyLowerChar (c : Char) : Char :=
  if 65 ≤ c.toNat ∧ c.toNat ≤ 90 then Char.ofNat (c.toNat + 32) else c

/-- Model of `str.upper` on one character (ASCII case map). -/
def pyUpperChar (c : Char) : Char :=
  if 97 ≤ c.toNat ∧ c.toNat ≤ 122 then Char.ofNat (c.toNat - 32) else c

/-- Model of the regex class `\s` (ASCII whitespace). -/
def pyIsSpace (c : Char) : Bool :=
  decide (c = ' ' ∨ c = '\t' ∨ c = '\n' ∨ c = '\r' ∨ c.toNat = 11 ∨ c.toNat = 12)

def isAsciiUpper (c : Char) : Bool := decide (65 ≤ c.toNat ∧ c.toNat ≤ 90)

def isAsciiLower (c : Char) : Bool := decide (97 ≤ c.toNat ∧ c.toNat ≤ 122)

def isAsciiDigit (c : Char) : Bool := decide (48 ≤ c.toNat ∧ c.toNat ≤ 57)

def isAsciiAlpha (c : Char) : Bool := isAsciiUpper c || isAsciiLower c

/-- Hangul compatibility Jamo consonants `ㄱ-ㅎ` (U+3131..U+314E). -/
def isJamoCons (c : Char) : Bool := decide (0x3131 ≤ c.toNat ∧ c.toNat ≤ 0x314E)

/-- Hangul compatibility Jamo vowels `ㅏ-ㅣ` (U+314F..U+3163). -/
def isJamoVowel (c : Char) : Bool := decide (0x314F ≤ c.toNat ∧ c.toNat ≤ 0x3163)

/-- Hangul syllables `가-힣` (U+AC00..U+D7A3). -/
def isHangulSyl (c : Char) : Bool := decide (0xAC00 ≤ c.toNat ∧ c.toNat ≤ 0xD7A3)

def isHangulChar (c : Char) : Bool := isJamoCons c || isJamoVowel c || isHangulSyl c

/-- Model of the regex class `\w` on the repertoire the code base exercises. -/
def pyIsWord (c : Char) : Bool :=
  isAsciiAlpha c || isAsciiDigit c || c = '_' || isHangulChar c

def lowerL (l : List Char) : List Char := l.map pyLowerChar

def upperL (l : List Char) : List Char := l.map pyUpperChar

/-- Model of Python's substring test `needle in hay`. -/
def isSubL (needle hay : List Char) : Bool :=
  hay.tails.any (fun t => needle.isPrefixOf t)

def isSubS (needle hay : String) : Bool := isSubL needle.data hay.data

/-- Number of positions of `hay` at which `needle` occurs (used to state the
spec's "occurrences" reading of keyword counting). -/
def occurrencesOf (needle hay : List Char) : Nat :=
  hay.tails.countP (fun t => needle.isPrefixOf t)

/-- Split on newline characters (for the line-local behaviour of `.` in
Python regexes). -/
def splitLinesL (l : List Char) : List (List Char) := l.splitOn '\n'

/-- `p` occurs and `q` occurs after the end of that occurrence of `p`
(compilation of patterns of the shape `p.*q` within one line). -/
def subThenSub (p q l : List Char) : Bool :=
  (List.range (l.length + 1)).any
    (fun i => p.isPrefixOf (l.drop i) && isSubL q (l.drop (i + p.length)))

/-! ## `CommentProcessor.preprocess_text` and the text hash -/

/-- The character set kept by `re.sub(r'[^\w\sㄱ-ㅎㅏ-ㅣ가-힣]', '', text)`. -/
def keptChar (c : Char) : Bool := pyIsWord c || pyIsSpace c || isHangulChar c

/-- Compilation of `re.sub(r'\s+', ' ', text)`: every maximal whitespace run
becomes one space. -/
def collapseWs : List Char → List Char
  | [] => []
  | [c] => if pyIsSpace c then [' '] else [c]
  | c :: d :: r =>
    if pyIsSpace c then
      (if pyIsSpace d then collapseWs (d :: r) else ' ' :: collapseWs (d :: r))
    else c :: collapseWs (d :: r)

/-- Model of `str.strip()`. -/
def stripWs (l : List Char) : List Char :=
  ((l.dropWhile pyIsSpace).reverse.dropWhile pyIsSpace).reverse

/-- `CommentProcessor.preprocess_text`: lower-case, drop characters outside
`[\w\sㄱ-ㅎㅏ-ㅣ가-힣]`, collapse whitespace runs to one space, strip. -/
def preprocess_text (s : String) : String :=
  if s = "" then ""
  else String.mk (stripWs (collapseWs ((s.data.map pyLowerChar).filter keptChar)))

/-- `CommentProcessor.calculate_text_hash`: the MD5 digest of the normalized
text, modelled as an injective digest (the normalized text itself); the code
only ever compares digests for equality. -/
def calculate_text_hash (s : String) : String := preprocess_text s

/-! ## `difflib.SequenceMatcher` (no junk, short sequences)

`calculate_similarity` calls `SequenceMatcher(None, a, b).ratio()`.  The
matcher recursively picks a longest matching block (first maximal block in
scan order: smallest ending index in `a`, then in `b`) and recurses on the
fragments to the left and to the right; `ratio` is `2·M/(len a + len b)`
where `M` is the total matched size. -/

/-- Length of the common suffix of `a[alo..i]` and `b[blo..j]` ending exactly
at positions `i`, `j` (the `j2len` chain of `find_longest_match`). -/
def suffLen (a b : List Char) (alo blo : Nat) : Nat → Nat → Nat
  | 0, j =>
    if 0 < alo || j < blo then 0
    else match a.get? 0, b.get? j with
      | some ca, some cb => if ca = cb then 1 else 0
      | _, _ => 0
  | i+1, j =>
    if i + 1 < alo || j < blo then 0
    else match a.get? (i+1), b.get? j with
      | some ca, some cb =>
        if ca = cb then
          match j with
          | 0 => 1
          | j'+1 => 1 + suffLen a b alo blo i j'
        else 0
      | _, _ => 0

/-- One candidate step of `find_longest_match`: record the block ending at
`(i, j)` exactly when its size strictly exceeds the best size so far. -/
def flmStep (a b : List Char) (alo blo i : Nat) (best : Nat × Nat × Nat) (j : Nat) :
    Nat × Nat × Nat :=
  let k := suffLen a b alo blo i j
  if best.2.2 < k then (i + 1 - k, j + 1 - k, k) else best

/-- `SequenceMatcher.find_longest_match` on the window
`a[alo:ahi] × b[blo:bhi]`: scan `(i, j)` in lexicographic order, record a
block on strict improvement of its size. Returns `(besti, bestj, bestsize)`. -/
def findLongestMatch (a b : List Char) (alo ahi blo bhi : Nat) : Nat × Nat × Nat :=
  (List.range' alo (ahi - alo)).foldl
    (fun best i =>
      (List.range' blo (bhi - blo)).foldl (flmStep a b alo blo i) best)
    (alo, blo, 0)

/-- Total matched size of `get_matching_blocks` on a window (the sum of the
`k` of every block found by the recursive splitting).  `fuel` only bounds the
recursion depth; `matchTotal` below supplies enough of it. -/
def matchTotalF (a b : List Char) : Nat → Nat → Nat → Nat → Nat → Nat
  | 0, _, _, _, _ => 0
  | fuel+1, alo, ahi, blo, bhi =>
    let m := findLongestMatch a b alo ahi blo bhi
    if m.2.2 = 0 then 0
    else
      m.2.2 +
        ((if alo < m.1 ∧ blo < m.2.1 then matchTotalF a b fuel alo m.1 blo m.2.1 else 0) +
         (if m.1 + m.2.2 < ahi ∧ m.2.1 + m.2.2 < bhi then
            matchTotalF a b fuel (m.1 + m.2.2) ahi (m.2.1 + m.2.2) bhi
          else 0))

/-- Total matched size `M` of `SequenceMatcher(None, a, b)`. -/
def matchTotal (a b : List Char) : Nat :=
  matchTotalF a b (a.length + 1) 0 a.length 0 b.length

/-- `SequenceMatcher.ratio()` (`_calculate_ratio`). -/
def ratioOf (a b : List Char) : ℚ :=
  if a.length + b.length = 0 then 1
  else (2 * (matchTotal a b : ℚ)) / ((a.length : ℚ) + (b.length : ℚ))

/-- `CommentProcessor.calculate_similarity`. -/
def calculate_similarity (t1 t2 : String) : ℚ :=
  if t1 = "" || t2 = "" then 0
  else
    let n1 := preprocess_text t1
    let n2 := preprocess_text t2
    if n1 = "" || n2 = "" then 0
    else ratioOf n1.data n2.data

/-! ## `URLSpamDetector`: static tables -/

inductive RiskCategory
  | adult_content | promotion | malicious | gambling | scam
  | commercial | suspicious_content | adult_slang
deriving DecidableEq, Repr

open RiskCategory in
/-- The keys of `suspicious_patterns`, in dict insertion order. -/
def categoryList : List RiskCategory :=
  [adult_content, promotion, malicious, gambling, scam,
   commercial, suspicious_content, adult_slang]

def categoryKeywords : RiskCategory → List String
  | .adult_content =>
    ["성인", "19금", "l9금", "adult", "xxx", "porn", "야동", "성인방송", "19방", "성인사이트"]
  | .promotion =>
    ["내 채널", "구독", "좋아요", "팔로우", "구독하고", "좋아요하고", "내채널", "제채널",
     "체널", "기억해주세요", "꼭 기억", "잊지 말아"]
  | .malicious => ["클릭", "링크", "바로가기", "접속", "방문"]
  | .gambling => ["카지노", "도박", "casino", "bet", "배팅", "토토", "슬롯"]
  | .scam => ["무료", "이벤트", "당첨", "공짜", "돈벌기", "수익", "재택", "부업"]
  | .commercial => ["판매", "구매", "할인", "특가", "쇼핑", "상품", "주문"]
  | .suspicious_content => ["분노", "평화", "마음속", "진정한", "부드럽게", "다스리", "평화로운", "삶"]
  | .adult_slang => ["상남자", "선물ㄱㄱ", "핵불닭맛", "걸..ㄹ", "난리났던", "진심", "ㄹㅇ", "갤에서"]

def categoryDomains : RiskCategory → List String
  | .adult_content => ["xvideos.com", "pornhub.com", "xnxx.com"]
  | .promotion => ["youtube.com", "youtu.be"]
  | .malicious => ["bit.ly", "tinyurl.com", "short.link", "ow.ly", "tiny.cc"]
  | .gambling => ["casino.com", "bet365.com"]
  | .scam => []
  | .commercial => ["shopping.naver.com", "coupang.com", "gmarket.co.kr"]
  | .suspicious_content => []
  | .adult_slang => []

def riskScore : RiskCategory → Nat
  | .adult_content => 10
  | .promotion => 5
  | .malicious => 8
  | .gambling => 9
  | .scam => 7
  | .commercial => 4
  | .suspicious_content => 3
  | .adult_slang => 8

/-! ## `URLSpamDetector.extract_urls`: the five URL regexes

Each regex of `url_patterns` is compiled by hand into a matcher that, at a
given position, returns the length of the (greedy, first-success in Python
backtracking order) match, and a `finditer` driver that scans left to right
and resumes after each match. All five are applied with `re.IGNORECASE`. -/

def hostChar (c : Char) : Bool := c = '-' || pyIsWord c || c = '.'

def portChar (c : Char) : Bool := c = ':' || isAsciiDigit c

def pathChar (c : Char) : Bool := pyIsWord c || c = '/' || c = '_' || c = '.'

def queryChar (c : Char) : Bool := pyIsWord c || c = '&' || c = '=' || c = '%' || c = '.'

def fragChar (c : Char) : Bool := pyIsWord c || c = '.'

def wordDashChar (c : Char) : Bool := pyIsWord c || c = '-'

/-- Case-insensitive literal match (`re.IGNORECASE` on literal pattern text). -/
def isPrefixCI : List Char → List Char → Bool
  | [], _ => true
  | _ :: _, [] => false
  | p :: ps, c :: cs => (pyLowerChar p = pyLowerChar c) && isPrefixCI ps cs

def takeWhileCount (p : Char → Bool) (l : List Char) : Nat := (l.takeWhile p).length

/-- The common optional tail `(?:/(?:[\w/_.])*(?:\?(?:[\w&=%.])*)?(?:#(?:[\w.])*)?)?`
of the first three URL patterns; returns the number of characters consumed. -/
def urlPathLen (l : List Char) : Nat :=
  match l with
  | '/' :: rest =>
    let p := takeWhileCount pathChar rest
    let rest1 := rest.drop p
    let q := match rest1 with
      | '?' :: r2 => 1 + takeWhileCount queryChar r2
      | _ => 0
    let rest2 := rest1.drop q
    let f := match rest2 with
      | '#' :: r3 => 1 + takeWhileCount fragChar r3
      | _ => 0
    1 + p + q + f
  | _ => 0

/-- Pattern 1: `https?://(?:[-\w.])+(?:[:\d]+)?<path>`. -/
def pat1MatchAt (l : List Char) : Option Nat :=
  let go (schemeLen : Nat) (rest : List Char) : Option Nat :=
    let h := takeWhileCount hostChar rest
    if h = 0 then none
    else
      let r1 := rest.drop h
      let pt := takeWhileCount portChar r1
      some (schemeLen + h + pt + urlPathLen (r1.drop pt))
  if isPrefixCI "https://".data l then go 8 (l.drop 8)
  else if isPrefixCI "http://".data l then go 7 (l.drop 7)
  else none

/-- The TLD alternation `(?:com|kr|net|org|edu|gov|co\.kr|ne\.kr)`, tried in
pattern order. -/
def tldMatch (l : List Char) : Option Nat :=
  (["com", "kr", "net", "org", "edu", "gov", "co.kr", "ne.kr"] : List String).findSome?
    (fun t => if isPrefixCI t.data l then some t.data.length else none)

/-- `(?:[-\w.])+\.(?:com|...)<path>` with Python's backtracking: the host run
is taken greedily first and then shortened one character at a time until
`\.`+TLD matches. -/
def domainTldLen (rest : List Char) : Option Nat :=
  let m := takeWhileCount hostChar rest
  (List.range m).findSome? (fun d =>
    let s := m - d
    match rest.drop s with
    | '.' :: r2 => (tldMatch r2).map (fun t => s + 1 + t + urlPathLen (r2.drop t))
    | _ => none)

/-- Pattern 2: `www\.(?:[-\w.])+\.(?:com|...)<path>`. -/
def pat2MatchAt (l : List Char) : Option Nat :=
  if isPrefixCI "www.".data l then (domainTldLen (l.drop 4)).map (4 + ·) else none

/-- Pattern 3: `(?:^|\s)(?:[-\w.]+\.(?:com|...))<path>`; the matched text
includes the leading whitespace character when the `\s` branch applies
(`^` only matches at position 0: no MULTILINE flag). -/
def pat3MatchAt (atStart : Bool) (l : List Char) : Option Nat :=
  let viaSpace : Option Nat :=
    match l with
    | c :: rest => if pyIsSpace c then (domainTldLen rest).map (1 + ·) else none
    | [] => none
  if atStart then
    match domainTldLen l with
    | some n => some n
    | none => viaSpace
  else viaSpace

/-- Pattern 4: `(?:youtube\.com/channel/|youtube\.com/@|youtu\.be/)[\w-]+`. -/
def pat4MatchAt (l : List Char) : Option Nat :=
  (["youtube.com/channel/", "youtube.com/@", "youtu.be/"] : List String).findSome?
    (fun a =>
      if isPrefixCI a.data l then
        let w := takeWhileCount wordDashChar (l.drop a.data.length)
        if w = 0 then none else some (a.data.length + w)
      else none)

/-- Pattern 5: `(?:bit\.ly|tinyurl\.com|ow\.ly|tiny\.cc)/[\w-]+`. -/
def pat5MatchAt (l : List Char) : Option Nat :=
  (["bit.ly", "tinyurl.com", "ow.ly", "tiny.cc"] : List String).findSome?
    (fun a =>
      if isPrefixCI a.data l then
        match l.drop a.data.length with
        | '/' :: r =>
          let w := takeWhileCount wordDashChar r
          if w = 0 then none else some (a.data.length + 1 + w)
        | _ => none
      else none)

/-- `re.finditer`: scan left to right, resume after each (nonempty) match.
The matcher receives whether the current position is the string start. -/
def finditerF (matchAt : Bool → List Char → Option Nat) (l : List Char) :
    Nat → Nat → List (Nat × Nat)
  | 0, _ => []
  | fuel+1, i =>
    if l.length < i then []
    else match matchAt (i = 0) (l.drop i) with
      | some n => (i, i + n) :: finditerF matchAt l fuel (i + n)
      | none => finditerF matchAt l fuel (i + 1)

def finditer (matchAt : Bool → List Char → Option Nat) (l : List Char) :
    List (Nat × Nat) :=
  finditerF matchAt l (l.length + 1) 0

/-- One extracted URL (`pattern_type` is the constant `'url'` and is not
modelled). -/
structure UrlInfo where
  url : String
  ustart : Nat
  uend : Nat
deriving DecidableEq, Repr

def urlsOfPattern (matchAt : Bool → List Char → Option Nat) (l : List Char) :
    List UrlInfo :=
  (finditer matchAt l).filterMap (fun se =>
    let raw := (l.drop se.1).take (se.2 - se.1)
    let u := stripWs raw
    if u.isEmpty then none else some ⟨String.mk u, se.1, se.2⟩)

/-- `URLSpamDetector.extract_urls`: apply the five patterns in order; each
match's `group(0)` is stripped and dropped when empty. -/
def extract_urls (text : String) : List UrlInfo :=
  let l := text.data
  urlsOfPattern (fun _ => pat1MatchAt) l ++
  urlsOfPattern (fun _ => pat2MatchAt) l ++
  urlsOfPattern pat3MatchAt l ++
  urlsOfPattern (fun _ => pat4MatchAt) l ++
  urlsOfPattern (fun _ => pat5MatchAt) l

/-! ## `URLSpamDetector.extract_youtube_info` -/

def ytIdChar (c : Char) : Bool := isAsciiAlpha c || isAsciiDigit c || c = '_' || c = '-'

def ytHandleChar (c : Char) : Bool := ytIdChar c || isHangulSyl c

structure YtInfo where
  full_match : String
  identifier : Option String
  ytype : String
  ystart : Nat
  yend : Nat
deriving DecidableEq, Repr

/-- Matcher for one `youtube_patterns` entry: case-insensitive literal head,
then a nonempty run of the identifier class (the capture group). -/
def ytMatchAt (head : String) (idChar : Char → Bool) (l : List Char) : Option Nat :=
  if isPrefixCI head.data l then
    let w := takeWhileCount idChar (l.drop head.data.length)
    if w = 0 then none else some (head.data.length + w)
  else none

def ytInfosOf (head : String) (idChar : Char → Bool) (ytype : String)
    (l : List Char) : List YtInfo :=
  (finditer (fun _ => ytMatchAt head idChar) l).map (fun se =>
    let raw := (l.drop se.1).take (se.2 - se.1)
    ⟨String.mk raw, some (String.mk (raw.drop head.data.length)), ytype, se.1, se.2⟩)

/-- `URLSpamDetector.extract_youtube_info`.  The type of the fifth pattern is
`'unknown'`: `_get_youtube_type` tests `'youtu.be' in pattern` against the raw
pattern text `youtu\.be/...`, whose backslash makes the test fail. -/
def extract_youtube_info (text : String) : List YtInfo :=
  let l := text.data
  ytInfosOf "youtube.com/channel/" ytIdChar "channel_id" l ++
  ytInfosOf "youtube.com/@" ytHandleChar "handle" l ++
  ytInfosOf "youtube.com/c/" ytHandleChar "custom_url" l ++
  ytInfosOf "youtube.com/user/" ytIdChar "username" l ++
  ytInfosOf "youtu.be/" ytIdChar "unknown" l

/-! ## `URLSpamDetector.analyze_nickname` -/

def countTrue (l : List Bool) : Nat := l.countP id

/-- Number of entries of `suspicious_nickname_patterns` that `re.search`
(with `re.IGNORECASE`) finds in the nickname.  Patterns of the shape `.*X.*`
reduce to a substring test; `_`/`-`-counting ones and `.*l9.*ON.*` are
line-local because `.` does not match a newline.  Both `.*tv.*` and `.*TV.*`
appear in the table and count twice. -/
def nicknameSuspicionHits (nickname : String) : Nat :=
  let lo := lowerL nickname.data
  let lns := splitLinesL lo
  countTrue
    [isSubL "채널".data lo, isSubL "체널".data lo, isSubL "구독".data lo,
     isSubL "tv".data lo, isSubL "tv".data lo,
     isSubL "방송".data lo, isSubL "유튜브".data lo, isSubL "youtube".data lo,
     isSubL ".com".data lo, isSubL ".kr".data lo, isSubL "www.".data lo,
     isSubL "http".data lo,
     isSubL "19금".data lo, isSubL "l9금".data lo, isSubL "성인".data lo,
     isSubL "adult".data lo,
     isSubL "dopamin".data lo, isSubL "high".data lo, isSubL "paimium".data lo,
     isSubL "new".data lo,
     isSubL "레드".data lo, isSubL "다크".data lo,
     lns.any (fun ln => 2 ≤ ln.count '_'),
     lns.any (fun ln => 3 ≤ ln.count '-'),
     isSubL "클릭".data lo, isSubL "on팬".data lo, isSubL "사건".data lo,
     lns.any (fun ln => subThenSub "l9".data "on".data ln)]

/-- Result of `analyze_nickname` (the `detected_patterns` list of raw regex
texts is presentational and not modelled). -/
structure NicknameAnalysis where
  suspicion_score : Nat
  contains_url : Bool
  urls : List UrlInfo
deriving DecidableEq, Repr

def analyze_nickname (nickname : String) : NicknameAnalysis :=
  let hits := nicknameSuspicionHits nickname
  let us := extract_urls nickname
  { suspicion_score := 2 * hits + (if us.isEmpty then 0 else 5)
    contains_url := !us.isEmpty
    urls := us }

/-! ## `URLSpamDetector._analyze_text_keywords` and `categorize_risks` -/

structure TextRisk where
  risk_score : ℚ
  categories : List RiskCategory
deriving DecidableEq, Repr

/-- The per-category step of `_analyze_text_keywords` on the lowercased text
`lo`: count the keywords present (each keyword once); a hit category adds
`count · risk_score · 0.3` and is recorded. -/
def atkStep (lo : List Char) (acc : TextRisk) (cat : RiskCategory) : TextRisk :=
  let cs := (categoryKeywords cat).countP (fun kw => isSubL kw.data lo)
  if 0 < cs then
    { risk_score := acc.risk_score + (cs : ℚ) * ((riskScore cat : ℚ) * (3/10))
      categories := acc.categories ++ [cat] }
  else acc

/-- `URLSpamDetector._analyze_text_keywords`. -/
def analyze_text_keywords (text : String) : TextRisk :=
  categoryList.foldl (atkStep (lowerL text.data)) ⟨0, []⟩

/-- `urllib.parse.urlparse(url).netloc` for a URL that starts with a scheme:
the text between `//` and the next `/`, `?` or `#`. -/
def netlocOf (url : List Char) : List Char :=
  let rest := if "https://".data.isPrefixOf url then url.drop 8 else url.drop 7
  rest.takeWhile (fun c => !(c = '/' || c = '?' || c = '#'))

structure UrlRisk where
  url : String
  domain : String
  categories : List RiskCategory
  risk_score : ℚ
deriving DecidableEq, Repr

/-- Per-URL risk: domain membership adds the category base score; each
category keyword found in the lowercased 50-character window around the URL
span adds half the base score (the category is recorded at most once). -/
def urlRiskOf (commentText : List Char) (u : UrlInfo) : UrlRisk :=
  let url := u.url.data
  let domain :=
    if "http://".data.isPrefixOf url || "https://".data.isPrefixOf url then
      lowerL (netlocOf url)
    else lowerL url
  let window := lowerL ((commentText.drop (u.ustart - 50)).take ((u.uend + 50) - (u.ustart - 50)))
  categoryList.foldl
    (fun acc cat =>
      let domainHit := (categoryDomains cat).any (fun d => isSubL d.data domain)
      let acc1 : UrlRisk :=
        if domainHit then
          { acc with risk_score := acc.risk_score + (riskScore cat : ℚ)
                     categories := acc.categories ++ [cat] }
        else acc
      let kwHits := (categoryKeywords cat).countP (fun kw => isSubL kw.data window)
      let acc2 : UrlRisk :=
        { acc1 with risk_score := acc1.risk_score + (kwHits : ℚ) * ((riskScore cat : ℚ) * (1/2)) }
      if 0 < kwHits ∧ cat ∉ acc2.categories then
        { acc2 with categories := acc2.categories ++ [cat] }
      else acc2)
    ⟨u.url, String.mk domain, [], 0⟩

/-- First-insertion-order deduplication: the canonical model of
`list(set(...))` (whose Python iteration order is unspecified). -/
def dedupFirst (l : List RiskCategory) : List RiskCategory :=
  l.foldl (fun acc c => if c ∈ acc then acc else acc ++ [c]) []

structure RiskAnalysis where
  total_risk_score : ℚ
  detected_categories : List RiskCategory
  url_analysis : List UrlRisk
  text_analysis : TextRisk
  nickname_analysis : NicknameAnalysis
  is_suspicious : Bool
  suspicion_level : String
deriving DecidableEq, Repr

/-- `URLSpamDetector._get_suspicion_level`. -/
def getSuspicionLevel (q : ℚ) : String :=
  if 15 ≤ q then "high"
  else if 8 ≤ q then "medium"
  else if 3 ≤ q then "low"
  else "safe"

/-- `URLSpamDetector.categorize_risks`. -/
def categorize_risks (urls : List UrlInfo) (comment_text author_name : String) :
    RiskAnalysis :=
  let urlRisks := urls.map (urlRiskOf comment_text.data)
  let urlTotal : ℚ := (urlRisks.map (·.risk_score)).sum
  let urlCats := (urlRisks.map (·.categories)).flatten
  let tr := analyze_text_keywords comment_text
  let na := analyze_nickname author_name
  let total := urlTotal + tr.risk_score + (na.suspicion_score : ℚ)
  { total_risk_score := total
    detected_categories := dedupFirst (urlCats ++ tr.categories)
    url_analysis := urlRisks
    text_analysis := tr
    nickname_analysis := na
    is_suspicious := decide (6 ≤ total)
    suspicion_level := getSuspicionLevel total }

/-! ## `URLSpamDetector._analyze_additional_patterns` and
`_analyze_nickname_content_combination` -/

structure AdditionalPatterns where
  repeated_chars : Bool
  excessive_emojis : Bool
  caps_lock_heavy : Bool
  promotional_phrases : Bool
  name_channel_match : Bool
  promotional_score : Nat
  is_promotional : Bool
deriving DecidableEq, Repr

/-- `re.findall(r'(.)\1{3,}', t)` is nonempty: some non-newline character
occurs four times in a row. -/
def hasRun4 : List Char → Bool
  | a :: b :: c :: d :: r =>
    (a != '\n' && a == b && b == c && c == d) || hasRun4 (b :: c :: d :: r)
  | _ => false

/-- The class `[😀-🿿]` (U+1F600..U+1FFFF). -/
def inEmojiBlock (c : Char) : Bool := decide (0x1F600 ≤ c.toNat ∧ c.toNat ≤ 0x1FFFF)

/-- `_analyze_additional_patterns`; `len(re.findall(r'[A-Z]', t)) > len(t)*0.5`
is the exact comparison `2·count > len`. -/
def analyze_additional_patterns (comment_text author_name : String) :
    AdditionalPatterns :=
  let t := comment_text.data
  let lo := lowerL t
  let rc := hasRun4 t
  let ee := decide (5 < t.countP inEmojiBlock)
  let cl := decide (t.length < 2 * t.countP isAsciiUpper)
  let pp := (["구독하고", "좋아요하고", "팔로우하고", "내 채널", "제 채널"] : List String).any
    (fun p => isSubL p.data lo)
  let nc := ((["채널", "tv", "방송"] : List String).any
      (fun w => isSubL w.data (lowerL author_name.data))) &&
    ((["구독", "좋아요"] : List String).any (fun w => isSubL w.data lo))
  let score := countTrue [rc, ee, cl, pp, nc]
  ⟨rc, ee, cl, pp, nc, score, decide (2 ≤ score)⟩

/-- `re.search(r'.*-[a-zA-Z]$', nick)`: the nickname ends in `-<letter>`,
optionally followed by one final newline (the `$` rule). -/
def endsWithDashLetter (l : List Char) : Bool :=
  match l.reverse with
  | x :: '-' :: _ => isAsciiAlpha x
  | '\n' :: x :: '-' :: _ => isAsciiAlpha x
  | _ => false

/-- `re.findall(r'[ㄱ-ㅎ]{2,}', t)` is nonempty: two adjacent compatibility
Jamo consonants occur. -/
def hasJamoPair : List Char → Bool
  | a :: b :: r => (isJamoCons a && isJamoCons b) || hasJamoPair (b :: r)
  | _ => false

def wordRunsAux : List Char → List Char → List (List Char)
  | [], acc => if acc.isEmpty then [] else [acc.reverse]
  | c :: r, acc =>
    if pyIsWord c then wordRunsAux r (c :: acc)
    else if acc.isEmpty then wordRunsAux r []
    else acc.reverse :: wordRunsAux r []

/-- `re.findall(r'\w+', l)`: the maximal word-character runs. -/
def wordRuns (l : List Char) : List (List Char) := wordRunsAux l []

def dedupLists (l : List (List Char)) : List (List Char) :=
  l.foldl (fun acc w => if w ∈ acc then acc else acc ++ [w]) []

/-- Result of `_analyze_nickname_content_combination` (the
`detected_patterns` label list is presentational and not modelled). -/
structure CombinationAnalysis where
  combination_score : Nat
deriving DecidableEq, Repr

/-- `_analyze_nickname_content_combination`.  `re.search(r'.*체?널.*', n, I)`
reduces to the substring test for `널` (the `체` is optional); the word-set
overlap test `|nick ∩ text| / |nick| > 0.5` is the exact comparison
`2·|∩| > |nick|`. -/
def analyze_nickname_content_combination (nickname comment_text : String) :
    CombinationAnalysis :=
  let nick := nickname.data
  let nickLo := lowerL nick
  let text := comment_text.data
  let s1 :=
    if isSubL "널".data nickLo then
      8 * ((["기억해주세요", "꼭 기억", "잊지 말아", "기억하고", "꼭 잊지"] : List String).countP
        (fun kw => isSubL kw.data text))
    else 0
  let s2 := if isSubL "19금".data nickLo || isSubL "l9금".data nickLo then 10 else 0
  let nickUp := upperL nick
  let kwCount := (["DOPAMIN", "HIGH", "NEW", "PAIMIUM", "레드", "다크", "클릭", "ON팬", "사건"] :
    List String).countP (fun k => isSubL k.data nickUp)
  let s3 := if 2 ≤ kwCount then 6 else 0
  let s4 := if 3 ≤ nick.count '-' then 5 else 0
  let s5 := if endsWithDashLetter nick then 4 else 0
  let s6 := 6 * ((["상남자", "선물ㄱㄱ", "핵불닭맛", "걸..ㄹ", "난리났던"] : List String).countP
    (fun sl => isSubL sl.data text))
  let s7 := if hasJamoPair text then 3 else 0
  let s8 := if "👈".data.isPrefixOf (stripWs text) then 5 else 0
  let nickWords := dedupLists (wordRuns nickLo)
  let textWords := dedupLists (wordRuns (lowerL text))
  let inter := nickWords.countP (fun w => decide (w ∈ textWords))
  let s9 := if nickWords.length ≠ 0 ∧ nickWords.length < 2 * inter then 4 else 0
  ⟨s1 + s2 + s3 + s4 + s5 + s6 + s7 + s8 + s9⟩

/-! ## `URLSpamDetector.analyze_comment` -/

/-- Python `int()` on a rational: truncation toward zero. -/
def pyInt (q : ℚ) : ℤ := if 0 ≤ q then q.floor else -((-q).floor)

/-- The `total_spam_score` of `analyze_comment`:
risk total + 2·promotional score + combination score. -/
def totalSpamScore (comment_text author_name : String) : ℚ :=
  (categorize_risks (extract_urls comment_text) comment_text author_name).total_risk_score
    + ((analyze_additional_patterns comment_text author_name).promotional_score : ℚ) * 2
    + ((analyze_nickname_content_combination author_name comment_text).combination_score : ℚ)

structure SpamVerdict where
  urls : List UrlInfo
  youtube_info : List YtInfo
  risk_analysis : RiskAnalysis
  additional_patterns : AdditionalPatterns
  combination_analysis : CombinationAnalysis
  is_spam : Bool
  spam_confidence : ℤ
deriving DecidableEq, Repr

/-- `URLSpamDetector.analyze_comment`.  The surrounding `try`/`except` never
fires (every step is total) and is not modelled. -/
def analyze_comment (comment_text author_name : String) : SpamVerdict :=
  let urls := extract_urls comment_text
  let yt := extract_youtube_info comment_text
  let risk := categorize_risks urls comment_text author_name
  let add := analyze_additional_patterns comment_text author_name
  let comb := analyze_nickname_content_combination author_name comment_text
  let total := risk.total_risk_score + (add.promotional_score : ℚ) * 2 +
    (comb.combination_score : ℚ)
  { urls := urls
    youtube_info := yt
    risk_analysis := risk
    additional_patterns := add
    combination_analysis := comb
    is_spam := decide (6 ≤ total) || risk.is_suspicious || add.is_promotional
    spam_confidence := min 100 (pyInt (total * 4)) }

/-! ## Comment records and raising dictionary access -/

inductive PyErr
  | keyError (field : String)
  | indexError
deriving DecidableEq, Repr

/-- A comment record; `none` models an absent key. -/
structure PyComment where
  comment_id : Option String
  text : Option String
  author : Option String
  is_reply : Option Bool
  parent_id : Option String
  like_count : Option Int
  timestamp : Option String
deriving DecidableEq, Repr

/-- `comment[field]`: raises `KeyError` when the key is absent. -/
def pyGet (field : String) : Option α → Except PyErr α
  | some v => .ok v
  | none => .error (.keyError field)

def getText (c : PyComment) : Except PyErr String := pyGet "text" c.text

def getAuthor (c : PyComment) : Except PyErr String := pyGet "author" c.author

def getCommentId (c : PyComment) : Except PyErr String := pyGet "comment_id" c.comment_id

/-- `seq[0]` on a Python list. -/
def pyHead : List α → Except PyErr α
  | x :: _ => .ok x
  | [] => .error .indexError

/-- `list(set(...))` on strings, canonicalized to first-insertion order. -/
def pySetStr (l : List String) : List String :=
  l.foldl (fun acc s => if s ∈ acc then acc else acc ++ [s]) []

/-! ## `CommentProcessor.detect_exact_duplicates` -/

/-- Append `c` to the bucket of key `h` of an insertion-ordered association
list (`defaultdict(list)` with ordered keys). -/
def insertHash (groups : List (String × List PyComment)) (h : String) (c : PyComment) :
    List (String × List PyComment) :=
  match groups with
  | [] => [(h, [c])]
  | (k, g) :: rest =>
    if k = h then (k, g ++ [c]) :: rest else (k, g) :: insertHash rest h c

/-- The `hash_groups` accumulation loop of `detect_exact_duplicates`. -/
def hashGroupsM (comments : List PyComment) :
    Except PyErr (List (String × List PyComment)) :=
  comments.foldlM
    (fun groups c => do
      let t ← getText c
      pure (insertHash groups (calculate_text_hash t) c))
    []

/-- `CommentProcessor.detect_exact_duplicates`: bucket by normalized-text
hash, keep buckets of size `≥ min_duplicate_count`. -/
def detect_exact_duplicates (min_duplicate_count : Nat) (comments : List PyComment) :
    Except PyErr (List (String × List PyComment)) := do
  let groups ← hashGroupsM comments
  pure (groups.filter (fun p => min_duplicate_count ≤ p.2.length))

/-! ## `CommentProcessor.detect_similar_duplicates` -/

/-- One step of the greedy clustering: append the comment to the first
cluster whose representative (first member) has similarity `≥ threshold`;
`none` when no cluster accepts it. -/
def tryJoin (st : ℚ) (c : PyComment) :
    List (List PyComment) → Except PyErr (Option (List (List PyComment)))
  | [] => pure none
  | g :: gs => do
    let t ← getText c
    let rep ← pyHead g
    let rt ← getText rep
    if st ≤ calculate_similarity t rt then
      pure (some ((g ++ [c]) :: gs))
    else do
      let res ← tryJoin st c gs
      pure (res.map (fun gs' => g :: gs'))

/-- The greedy clustering of `detect_similar_duplicates` before the
minimum-size filter (clusters in creation order, members in input order). -/
def similarClustersM (st : ℚ) (comments : List PyComment) :
    Except PyErr (List (List PyComment)) :=
  comments.foldlM
    (fun clusters c => do
      match ← tryJoin st c clusters with
      | some cs => pure cs
      | none => pure (clusters ++ [[c]]))
    []

/-- `CommentProcessor.detect_similar_duplicates`. -/
def detect_similar_duplicates (st : ℚ) (mdc : Nat) (comments : List PyComment) :
    Except PyErr (List (List PyComment)) := do
  let cs ← similarClustersM st comments
  pure (cs.filter (fun g => mdc ≤ g.length))

/-! ## `CommentProcessor.analyze_spam_patterns` -/

/-- The class of the emoji-only comment regex
`^[\U0001F600-\U0001F64F\U0001F300-\U0001F5FF\U0001F680-\U0001F6FF\U0001F1E0-\U0001F1FF\s]*$`. -/
def emojiOnlyClass (c : Char) : Bool :=
  decide ((0x1F600 ≤ c.toNat ∧ c.toNat ≤ 0x1F64F) ∨
          (0x1F300 ≤ c.toNat ∧ c.toNat ≤ 0x1F5FF) ∨
          (0x1F680 ≤ c.toNat ∧ c.toNat ≤ 0x1F6FF) ∨
          (0x1F1E0 ≤ c.toNat ∧ c.toNat ≤ 0x1F1FF)) || pyIsSpace c

/-- `emoji_pattern.match(text)` succeeds iff every character is in the class
(`$` may also stop before a final newline, but `\n` is itself in the class). -/
def emojiOnly (l : List Char) : Bool := l.all emojiOnlyClass

/-- The character class of the link regex:
`[a-zA-Z]|[0-9]|[$-_@.&+]|[!*\\(\\),]|%[0-9a-fA-F]{2}` (the last two
alternatives are subsumed by the `$`..`_` range except `!*\(),`). -/
def linkClass (c : Char) : Bool :=
  isAsciiAlpha c || isAsciiDigit c ||
  decide (0x24 ≤ c.toNat ∧ c.toNat ≤ 0x5F) ||
  decide (c = '!' ∨ c = '*' ∨ c = '\\' ∨ c = '(' ∨ c = ')' ∨ c = ',')

/-- `link_pattern.search(text)`: a case-sensitive `http://` or `https://`
followed by at least one class character. -/
def hasLinkMatch (l : List Char) : Bool :=
  l.tails.any (fun t =>
    ("https://".data.isPrefixOf t &&
      (match t.drop 8 with | c :: _ => linkClass c | [] => false)) ||
    ("http://".data.isPrefixOf t &&
      (match t.drop 7 with | c :: _ => linkClass c | [] => false)))

/-- `Counter` accumulation: insertion-ordered association list. -/
def incrCount : List (List Char × Nat) → List Char → List (List Char × Nat)
  | [], w => [(w, 1)]
  | (k, n) :: r, w => if k = w then (k, n + 1) :: r else (k, n) :: incrCount r w

def insertDesc (x : List Char × Nat) : List (List Char × Nat) → List (List Char × Nat)
  | [] => [x]
  | y :: r => if y.2 ≤ x.2 then x :: y :: r else y :: insertDesc x r

/-- Stable descending sort by count (`Counter.most_common` without the cut). -/
def sortDescByCount : List (List Char × Nat) → List (List Char × Nat)
  | [] => []
  | x :: r => insertDesc x (sortDescByCount r)

/-- The `common_phrases` computation: words are the maximal `\w`-runs of the
lowercased space-joined text; of the ten most common, keep those with count
`≥ 5` and length `> 2`. -/
def commonPhrasesOf (texts : List String) : List (String × Nat) :=
  let ws := wordRuns (lowerL (String.intercalate " " texts).data)
  let counts := ws.foldl incrCount []
  ((sortDescByCount counts).take 10).filterMap
    (fun p => if 5 ≤ p.2 ∧ 2 < p.1.length then some (String.mk p.1, p.2) else none)

structure UrlSpamDetail where
  comment_id : String
  author : String
  text : String
  spam_confidence : ℤ
  detected_categories : List RiskCategory
  urls : List UrlInfo
  youtube_info : List YtInfo
  is_reply : Bool
  parent_id : Option String
  like_count : Int
  timestamp : String
deriving DecidableEq, Repr

/-- The text shown in detail records: `t[:100] + '...' if len(t) > 100 else t`. -/
def truncated (t : String) : String :=
  if 100 < t.length then String.mk (t.data.take 100) ++ "..." else t

/-- The URL-spam loop (step 8 of `analyze_spam_patterns`): one
`analyze_comment` per comment, skipping comment ids already recorded as spam;
the in-place `_url_analysis` caching annotation has no observable effect here
and is not modelled. -/
def urlSpamLoop (comments : List PyComment) :
    Except PyErr (Nat × List UrlSpamDetail) := do
  let acc ← comments.foldlM
    (fun (acc : List String × Nat × List UrlSpamDetail) c => do
      let cid ← getCommentId c
      if cid ∈ acc.1 then pure acc
      else do
        let t ← getText c
        let au ← getAuthor c
        let v := analyze_comment t au
        if v.is_spam then
          let d : UrlSpamDetail :=
            { comment_id := cid
              author := au
              text := truncated t
              spam_confidence := v.spam_confidence
              detected_categories := v.risk_analysis.detected_categories
              urls := v.urls
              youtube_info := v.youtube_info
              is_reply := c.is_reply.getD false
              parent_id := c.parent_id
              like_count := c.like_count.getD 0
              timestamp := c.timestamp.getD "" }
          pure (acc.1 ++ [cid], acc.2.1 + 1, acc.2.2 ++ [d])
        else pure acc)
    ([], 0, [])
  pure (acc.2.1, acc.2.2)

structure ReplyDupPattern where
  text_sample : String
  duplicate_count : Nat
  authors : List String
deriving DecidableEq, Repr

structure ReplySpamDetail where
  comment_id : String
  author : String
  text : String
  parent_id : Option String
  spam_score : Nat
  spam_indicators : List String
  like_count : Int
  timestamp : String
deriving DecidableEq, Repr

structure ReplyPatterns where
  reply_spam_count : Nat
  reply_spam_details : List ReplySpamDetail
  reply_chain_spam : Nat
  reply_duplicate_patterns : List ReplyDupPattern
deriving DecidableEq, Repr

/-- The break-on-first-hit loop comparing a reply against the regular
comments at the hard-coded threshold `> 0.8`. -/
def firstSimilarToRegular (t : String) :
    List PyComment → Except PyErr Bool
  | [] => pure false
  | rc :: rest => do
    let rt ← getText rc
    if (4/5 : ℚ) < calculate_similarity t rt then pure true
    else firstSimilarToRegular t rest

/-- `CommentProcessor._analyze_reply_patterns`. -/
def analyze_reply_patterns (mdc : Nat) (comments : List PyComment) :
    Except PyErr ReplyPatterns := do
  let replies := comments.filter (fun c => c.is_reply.getD false)
  let regulars := comments.filter (fun c => !(c.is_reply.getD false))
  if replies.isEmpty then pure ⟨0, [], 0, []⟩
  else do
    let dups ← detect_exact_duplicates mdc replies
    let dupPatterns ← dups.mapM (fun p => do
      let first ← pyHead p.2
      let ts ← getText first
      let auths ← p.2.mapM getAuthor
      pure (⟨ts, p.2.length, pySetStr auths⟩ : ReplyDupPattern))
    let details ← replies.foldlM
      (fun (acc : List ReplySpamDetail) r => do
        let t ← getText r
        let veryShort := (preprocess_text t).data.length ≤ 2
        let au ← getAuthor r
        let urlSpam := (analyze_comment t au).is_spam
        let simHit ← firstSimilarToRegular t regulars
        let score := (if veryShort then 3 else 0) + (if urlSpam then 6 else 0) +
          (if simHit then 5 else 0)
        let indicators :=
          (if veryShort then ["very_short"] else []) ++
          (if urlSpam then ["url_spam"] else []) ++
          (if simHit then ["similar_to_main_comment"] else [])
        if 5 ≤ score then do
          let cid ← getCommentId r
          pure (acc ++ [⟨cid, au, truncated t, r.parent_id, score, indicators,
            r.like_count.getD 0, r.timestamp.getD ""⟩])
        else pure acc)
      []
    pure ⟨details.length, details, 0, dupPatterns⟩

structure SpamPatterns where
  exact_duplicates : Nat
  similar_groups : Nat
  suspicious_authors : List String
  common_phrases : List (String × Nat)
  short_repetitive : Nat
  emoji_spam : Nat
  link_spam : Nat
  url_spam : Nat
  url_spam_details : List UrlSpamDetail
  reply_spam_count : Nat
  reply_spam_details : List ReplySpamDetail
  reply_chain_spam : Nat
  reply_duplicate_patterns : List ReplyDupPattern
deriving DecidableEq, Repr

/-- `CommentProcessor.analyze_spam_patterns`.  Steps 4-7 each read
`comment['text']` for every comment; since step 1 already read every text,
they are computed here from the extracted text list (same values, same first
error). -/
def analyze_spam_patterns (st : ℚ) (mdc : Nat) (comments : List PyComment) :
    Except PyErr SpamPatterns := do
  let exactDups ← detect_exact_duplicates mdc comments
  let simGroups ← detect_similar_duplicates st mdc comments
  let texts ← comments.mapM getText
  let shortRep := texts.countP (fun t => (preprocess_text t).data.length ≤ 3)
  let emojiSpam := texts.countP (fun t => emojiOnly t.data)
  let linkSpam := texts.countP (fun t => hasLinkMatch t.data)
  let phrases := commonPhrasesOf texts
  let us ← urlSpamLoop comments
  let rp ← analyze_reply_patterns mdc comments
  pure
    { exact_duplicates := exactDups.length
      similar_groups := simGroups.length
      suspicious_authors := []
      common_phrases := phrases
      short_repetitive := shortRep
      emoji_spam := emojiSpam
      link_spam := linkSpam
      url_spam := us.1
      url_spam_details := us.2
      reply_spam_count := rp.reply_spam_count
      reply_spam_details := rp.reply_spam_details
      reply_chain_spam := rp.reply_chain_spam
      reply_duplicate_patterns := rp.reply_duplicate_patterns }

/-! ## `CommentProcessor.get_duplicate_groups`, `get_suspicious_comment_ids`,
`process_comments` -/

structure ExactGroupInfo where
  text_sample : String
  duplicate_count : Nat
  comment_ids : List String
  authors : List String
deriving DecidableEq, Repr

structure SimilaritySample where
  text : String
  similarity : ℚ
deriving DecidableEq, Repr

structure SimilarGroupInfo where
  representative_text : String
  similar_count : Nat
  comment_ids : List String
  authors : List String
  similarity_samples : List SimilaritySample
deriving DecidableEq, Repr

structure DuplicateGroups where
  exact_count : Nat
  exact_groups : List ExactGroupInfo
  similar_count : Nat
  similar_groups : List SimilarGroupInfo
deriving DecidableEq, Repr

/-- `CommentProcessor.get_duplicate_groups`. -/
def get_duplicate_groups (st : ℚ) (mdc : Nat) (comments : List PyComment) :
    Except PyErr DuplicateGroups := do
  let exactDups ← detect_exact_duplicates mdc comments
  let simGroups ← detect_similar_duplicates st mdc comments
  let eg ← exactDups.mapM (fun p => do
    let first ← pyHead p.2
    let ts ← getText first
    let ids ← p.2.mapM getCommentId
    let auths ← p.2.mapM getAuthor
    pure (⟨ts, p.2.length, ids, pySetStr auths⟩ : ExactGroupInfo))
  let sg ← simGroups.mapM (fun g => do
    let first ← pyHead g
    let rt ← getText first
    let ids ← g.mapM getCommentId
    let auths ← g.mapM getAuthor
    let samples ← ((g.drop 1).take 2).mapM (fun c => do
      let ct ← getText c
      pure (⟨ct, calculate_similarity rt ct⟩ : SimilaritySample))
    pure (⟨rt, g.length, ids, pySetStr auths, samples⟩ : SimilarGroupInfo))
  pure ⟨exactDups.length, eg, simGroups.length, sg⟩

def addId (ids : List String) (i : String) : List String :=
  if i ∈ ids then ids else ids ++ [i]

/-- `CommentProcessor.get_suspicious_comment_ids`: the union (a Python set,
canonicalized to first-insertion order) of exact-duplicate members, similar
cluster members, per-comment URL-spam verdicts and flagged reply ids. -/
def get_suspicious_comment_ids (st : ℚ) (mdc : Nat) (comments : List PyComment) :
    Except PyErr (List String) := do
  let exactDups ← detect_exact_duplicates mdc comments
  let ids1 ← exactDups.foldlM
    (fun acc p => p.2.foldlM
      (fun acc' c => do
        let cid ← getCommentId c
        pure (addId acc' cid))
      acc)
    []
  let simGroups ← detect_similar_duplicates st mdc comments
  let ids2 ← simGroups.foldlM
    (fun acc g => g.foldlM
      (fun acc' c => do
        let cid ← getCommentId c
        pure (addId acc' cid))
      acc)
    ids1
  let ids3 ← comments.foldlM
    (fun acc c => do
      let t ← getText c
      let au ← getAuthor c
      if (analyze_comment t au).is_spam then do
        let cid ← getCommentId c
        pure (addId acc cid)
      else pure acc)
    ids2
  let sp ← analyze_spam_patterns st mdc comments
  pure (sp.reply_spam_details.foldl (fun acc d => addId acc d.comment_id) ids3)

structure SpamIndicators where
  short_repetitive : Nat
  emoji_only : Nat
  contains_links : Nat
  url_spam : Nat
deriving DecidableEq, Repr

structure ProcessingSummary where
  exact_duplicate_groups : Nat
  similar_groups : Nat
  spam_indicators : SpamIndicators
deriving DecidableEq, Repr

/-- The report of `process_comments`.  `spam_patterns := none` models the
literal empty dict `{}` of the empty-input report, and
`processing_summary := none` models the absence of the `processing_summary`
key there. -/
structure ProcessingReport where
  total_comments : Nat
  suspicious_count : Nat
  duplicate_groups : DuplicateGroups
  spam_patterns : Option SpamPatterns
  suspicious_comment_ids : List String
  processing_summary : Option ProcessingSummary
deriving DecidableEq, Repr

/-- `CommentProcessor.process_comments`. -/
def process_comments (st : ℚ) (mdc : Nat) (comments : List PyComment) :
    Except PyErr ProcessingReport :=
  if comments.isEmpty then
    .ok
      { total_comments := 0
        suspicious_count := 0
        duplicate_groups := ⟨0, [], 0, []⟩
        spam_patterns := none
        suspicious_comment_ids := []
        processing_summary := none }
  else do
    let sp ← analyze_spam_patterns st mdc comments
    let dg ← get_duplicate_groups st mdc comments
    let ids ← get_suspicious_comment_ids st mdc comments
    pure
      { total_comments := comments.length
        suspicious_count := ids.length
        duplicate_groups := dg
        spam_patterns := some sp
        suspicious_comment_ids := ids
        processing_summary := some
          ⟨dg.exact_count, dg.similar_count,
           ⟨sp.short_repetitive, sp.emoji_spam, sp.link_spam, sp.url_spam⟩⟩ }

/-- The default `similarity_threshold` (`0.8`, modelled exactly). -/
def defaultSimilarityThreshold : ℚ := 4/5

/-- The default `min_duplicate_count`. -/
def defaultMinDuplicateCount : Nat := 3

/-! ## Generic helpers about `Except` folds -/

theorem pyBindError {α β : Type} (e : PyErr) (f : α → Except PyErr β) :
    (Except.error e : Except PyErr α) >>= f = .error e := rfl

theorem pyBindOk {α β : Type} (a : α) (f : α → Except PyErr β) :
    (Except.ok a : Except PyErr α) >>= f = f a := rfl

/-- An invariant preserved by every step of a `foldl` holds of the result. -/
theorem foldl_preserve {α β : Type _} (P : β → Prop) (f : β → α → β) (l : List α)
    (init : β) (h0 : P init) (hs : ∀ b a, a ∈ l → P b → P (f b a)) :
    P (l.foldl f init) := by
  induction l generalizing init with
  | nil => exact h0
  | cons x xs ih =>
    exact ih (f init x) (hs init x (by simp) h0)
      (fun b a ha hb => hs b a (by simp [ha]) hb)

/-! ## C8: the empty-input report -/

/-- C8 (confirmed): `process_comments []` returns, without raising, the report
with `total_comments = 0`, `suspicious_count = 0`, empty exact-duplicate and
similar-group collections, an empty suspicious-id list (and no summary). -/
theorem process_comments_empty (st : ℚ) (mdc : Nat) :
    process_comments st mdc [] = .ok
      { total_comments := 0
        suspicious_count := 0
        duplicate_groups := ⟨0, [], 0, []⟩
        spam_patterns := none
        suspicious_comment_ids := []
        processing_summary := none } := rfl

/-! ## C6: suspicion level thresholds -/

theorem getSuspicionLevel_spec (q : ℚ) :
    (getSuspicionLevel q = "high" ↔ 15 ≤ q) ∧
    (getSuspicionLevel q = "medium" ↔ 8 ≤ q ∧ q < 15) ∧
    (getSuspicionLevel q = "low" ↔ 3 ≤ q ∧ q < 8) ∧
    (getSuspicionLevel q = "safe" ↔ q < 3) := by
  unfold getSuspicionLevel
  split_ifs with h1 h2 h3
  · exact ⟨⟨fun _ => h1, fun _ => rfl⟩,
      ⟨fun hh => absurd hh (by decide), fun hh => absurd h1 (not_le.mpr hh.2)⟩,
      ⟨fun hh => absurd hh (by decide),
        fun hh => absurd h1 (not_le.mpr (hh.2.trans (by norm_num)))⟩,
      ⟨fun hh => absurd hh (by decide),
        fun hh => absurd h1 (not_le.mpr (hh.trans_le (by norm_num)))⟩⟩
  · exact ⟨⟨fun hh => absurd hh (by decide), fun hh => absurd hh h1⟩,
      ⟨fun _ => ⟨h2, not_le.mp h1⟩, fun _ => rfl⟩,
      ⟨fun hh => absurd hh (by decide), fun hh => absurd h2 (not_le.mpr hh.2)⟩,
      ⟨fun hh => absurd hh (by decide),
        fun hh => absurd h2 (not_le.mpr (hh.trans_le (by norm_num)))⟩⟩
  · exact ⟨⟨fun hh => absurd hh (by decide), fun hh => absurd hh h1⟩,
      ⟨fun hh => absurd hh (by decide), fun hh => absurd hh.1 h2⟩,
      ⟨fun _ => ⟨h3, not_le.mp h2⟩, fun _ => rfl⟩,
      ⟨fun hh => absurd hh (by decide), fun hh => absurd h3 (not_le.mpr hh)⟩⟩
  · exact ⟨⟨fun hh => absurd hh (by decide), fun hh => absurd hh h1⟩,
      ⟨fun hh => absurd hh (by decide), fun hh => absurd hh.1 h2⟩,
      ⟨fun hh => absurd hh (by decide), fun hh => absurd hh.1 h3⟩,
      ⟨fun _ => not_le.mp h3, fun _ => rfl⟩⟩

/-- C6 (confirmed): for every extracted-URL list, comment text and author,
`categorize_risks` reports `suspicion_level` "high" iff the total risk score
is `≥ 15`, "medium" iff it is in `[8, 15)`, "low" iff it is in `[3, 8)`,
"safe" otherwise, and `is_suspicious` exactly when the total is `≥ 6`. -/
theorem categorize_risks_levels (urls : List UrlInfo) (text author : String) :
    ((categorize_risks urls text author).suspicion_level = "high" ↔
      15 ≤ (categorize_risks urls text author).total_risk_score) ∧
    ((categorize_risks urls text author).suspicion_level = "medium" ↔
      8 ≤ (categorize_risks urls text author).total_risk_score ∧
      (categorize_risks urls text author).total_risk_score < 15) ∧
    ((categorize_risks urls text author).suspicion_level = "low" ↔
      3 ≤ (categorize_risks urls text author).total_risk_score ∧
      (categorize_risks urls text author).total_risk_score < 8) ∧
    ((categorize_risks urls text author).suspicion_level = "safe" ↔
      (categorize_risks urls text author).total_risk_score < 3) ∧
    ((categorize_risks urls text author).is_suspicious = true ↔
      6 ≤ (categorize_risks urls text author).total_risk_score) := by
  have h1 : (categorize_risks urls text author).suspicion_level =
      getSuspicionLevel ((categorize_risks urls text author).total_risk_score) := rfl
  have h2 : (categorize_risks urls text author).is_suspicious =
      decide (6 ≤ (categorize_risks urls text author).total_risk_score) := rfl
  rw [h1, h2]
  obtain ⟨g1, g2, g3, g4⟩ := getSuspicionLevel_spec
    ((categorize_risks urls text author).total_risk_score)
  exact ⟨g1, g2, g3, g4, by simp⟩

/-! ## C1: the spam verdict of `analyze_comment` -/

/-- C1 counterexample: on the comment text `"무료"` with author `"x"` the total
spam score is `21/10`, so `min(100, total × 4) = 42/5`, while the returned
`spam_confidence` is the truncated `int` value `8`: the claim's equation
without the `int(...)` truncation fails. -/
theorem analyze_comment_confidence_counterexample :
    ¬ (((analyze_comment "무료" "x").spam_confidence : ℚ) =
        min 100 (totalSpamScore "무료" "x" * 4)) := by
  have h1 : (analyze_comment "무료" "x").spam_confidence = 8 := by
    with_unfolding_all rfl
  have h2 : totalSpamScore "무료" "x" = 21/10 := by
    with_unfolding_all rfl
  rw [h1, h2]
  norm_num [min_def]

/-- C1 amended (the only change forced by the counterexample: the confidence is
`min(100, int(total_score × 4))`, with Python's `int` truncation):
`analyze_comment` returns `spam_confidence = min 100 (pyInt (total × 4))` and
`is_spam ↔ (total ≥ 6 ∨ risk.is_suspicious ∨ additional.is_promotional)`,
where the total is the risk-analysis total plus twice the promotional score
plus the nickname/content combination score; hence `is_spam` is false when
all three disjuncts are false and true as soon as any one holds. -/
theorem analyze_comment_verdict (t a : String) :
    (analyze_comment t a).spam_confidence = min 100 (pyInt (totalSpamScore t a * 4)) ∧
    ((analyze_comment t a).is_spam = true ↔
      (6 ≤ totalSpamScore t a ∨
       (categorize_risks (extract_urls t) t a).is_suspicious = true ∨
       (analyze_additional_patterns t a).is_promotional = true)) ∧
    totalSpamScore t a =
      (categorize_risks (extract_urls t) t a).total_risk_score +
      2 * ((analyze_additional_patterns t a).promotional_score : ℚ) +
      ((analyze_nickname_content_combination a t).combination_score : ℚ) := by
  refine ⟨rfl, ?_, by rw [totalSpamScore]; ring⟩
  have hspam : (analyze_comment t a).is_spam =
      (decide (6 ≤ totalSpamScore t a) ||
        (categorize_risks (extract_urls t) t a).is_suspicious ||
        (analyze_additional_patterns t a).is_promotional) := rfl
  rw [hspam]
  simp [Bool.or_eq_true, decide_eq_true_iff, or_assoc]

/-! ## C7: the full-text keyword contribution -/

/-- Modelled from the spec's words for the claimed reading: the keyword
contribution is, per category, the number of occurrences of that category's
keywords in the lowercased text times `risk_score × 0.3` (an occurrence count,
not a per-keyword presence count). -/
def claimedKeywordContribution (text : String) : ℚ :=
  (categoryList.map (fun cat =>
    ((((categoryKeywords cat).map
        (fun kw => occurrencesOf kw.data (lowerL text.data))).sum : ℚ)
      * ((riskScore cat : ℚ) * (3/10))))).sum

/-- C7 counterexample: in `"무료 무료"` the scam keyword `무료` occurs twice, so
the claimed occurrence-weighted contribution is `2 × 7 × 0.3 = 21/5`, but
`_analyze_text_keywords` counts each keyword at most once and returns
`1 × 7 × 0.3 = 21/10`. -/
theorem analyze_text_keywords_counterexample :
    ¬ ((analyze_text_keywords "무료 무료").risk_score =
        claimedKeywordContribution "무료 무료") := by
  have h1 : (analyze_text_keywords "무료 무료").risk_score = 21/10 := by
    with_unfolding_all rfl
  have h2 : claimedKeywordContribution "무료 무료" = 21/5 := by
    with_unfolding_all rfl
  rw [h1, h2]
  norm_num

theorem atk_fold (lo : List Char) (cats : List RiskCategory) (acc : TextRisk) :
    (cats.foldl (atkStep lo) acc).risk_score =
      acc.risk_score + (cats.map (fun cat =>
        (((categoryKeywords cat).countP (fun kw => isSubL kw.data lo)) : ℚ)
          * ((riskScore cat : ℚ) * (3/10)))).sum ∧
    ∀ c : RiskCategory, c ∈ (cats.foldl (atkStep lo) acc).categories ↔
      c ∈ acc.categories ∨ (c ∈ cats ∧
        0 < (categoryKeywords c).countP (fun kw => isSubL kw.data lo)) := by
  induction cats generalizing acc with
  | nil => simp
  | cons x xs ih =>
    rw [List.foldl_cons]
    by_cases hx : 0 < (categoryKeywords x).countP (fun kw => isSubL kw.data lo)
    · have hstep : atkStep lo acc x =
        ⟨acc.risk_score + (((categoryKeywords x).countP (fun kw => isSubL kw.data lo)) : ℚ)
          * ((riskScore x : ℚ) * (3/10)), acc.categories ++ [x]⟩ := by
        unfold atkStep; rw [if_pos hx]
      rw [hstep]
      obtain ⟨ihs, ihm⟩ := ih ⟨acc.risk_score + (((categoryKeywords x).countP
        (fun kw => isSubL kw.data lo)) : ℚ) * ((riskScore x : ℚ) * (3/10)),
        acc.categories ++ [x]⟩
      refine ⟨?_, ?_⟩
      · rw [ihs, List.map_cons, List.sum_cons]; ring
      · intro c
        rw [ihm c]
        simp only [List.mem_append, List.mem_cons, List.not_mem_nil, or_false]
        constructor
        · rintro ((hc | rfl) | ⟨hc, hp⟩)
          · exact Or.inl hc
          · exact Or.inr ⟨Or.inl rfl, hx⟩
          · exact Or.inr ⟨Or.inr hc, hp⟩
        · rintro (hc | ⟨rfl | hc, hp⟩)
          · exact Or.inl (Or.inl hc)
          · exact Or.inl (Or.inr rfl)
          · exact Or.inr ⟨hc, hp⟩
    · have hz : (categoryKeywords x).countP (fun kw => isSubL kw.data lo) = 0 := by omega
      have hstep : atkStep lo acc x = acc := by unfold atkStep; rw [if_neg hx]
      rw [hstep]
      obtain ⟨ihs, ihm⟩ := ih acc
      refine ⟨?_, ?_⟩
      · rw [ihs, List.map_cons, List.sum_cons, hz]; push_cast; ring
      · intro c
        rw [ihm c]
        simp only [List.mem_cons]
        constructor
        · rintro (hc | ⟨hc, hp⟩)
          · exact Or.inl hc
          · exact Or.inr ⟨Or.inr hc, hp⟩
        · rintro (hc | ⟨rfl | hc, hp⟩)
          · exact Or.inl hc
          · exact absurd hp hx
          · exact Or.inr ⟨hc, hp⟩

theorem mem_categoryList (c : RiskCategory) : c ∈ categoryList := by
  cases c <;> simp [categoryList]

/-- C7 amended (the only change forced by the counterexample: each keyword is
counted once if present, not once per occurrence): the keyword contribution of
`_analyze_text_keywords` is the sum over categories of
`(number of that category's keywords present in the lowercased text) ×
risk_score × 0.3`, and a category is detected exactly when at least one of its
keywords appears in the lowercased text. -/
theorem analyze_text_keywords_spec (text : String) :
    (analyze_text_keywords text).risk_score =
      (categoryList.map (fun cat =>
        (((categoryKeywords cat).countP (fun kw => isSubL kw.data (lowerL text.data))) : ℚ)
          * ((riskScore cat : ℚ) * (3/10)))).sum ∧
    ∀ cat : RiskCategory, cat ∈ (analyze_text_keywords text).categories ↔
      ∃ kw ∈ categoryKeywords cat, isSubL kw.data (lowerL text.data) = true := by
  unfold analyze_text_keywords
  obtain ⟨hs, hm⟩ := atk_fold (lowerL text.data) categoryList ⟨0, []⟩
  refine ⟨by rw [hs]; ring, fun cat => ?_⟩
  rw [hm cat]
  simp [mem_categoryList cat, List.countP_pos_iff]

/-! ## C4: missing `text`/`author` fields raise `KeyError` -/

/-- A comment record lacking the `text` key. -/
def c4NoText : PyComment := ⟨some "1", none, some "a", none, none, none, none⟩

/-- C4 counterexample: on an input whose comment lacks `text`,
`detect_exact_duplicates` raises `KeyError('text')` instead of treating the
field as the empty string and returning a result. -/
theorem detect_exact_raises_counterexample :
    detect_exact_duplicates 3 [c4NoText] = .error (.keyError "text") ∧
    ∀ r, ¬ (detect_exact_duplicates 3 [c4NoText] = .ok r) := by
  refine ⟨rfl, fun r hr => ?_⟩
  rw [show detect_exact_duplicates 3 [c4NoText] = .error (.keyError "text") from rfl] at hr
  exact Except.noConfusion hr

theorem hashGroupsM_error (comments : List PyComment)
    (h : ∃ c ∈ comments, c.text = none) :
    hashGroupsM comments = .error (.keyError "text") := by
  unfold hashGroupsM
  suffices H : ∀ (l : List PyComment) (acc : List (String × List PyComment)),
      (∃ c ∈ l, c.text = none) →
      l.foldlM (fun groups c => do
        let t ← getText c
        pure (insertHash groups (calculate_text_hash t) c)) acc =
        .error (.keyError "text") from H comments [] h
  intro l
  induction l with
  | nil => intro acc h'; simp at h'
  | cons c cs ih =>
    intro acc h'
    rw [List.foldlM_cons]
    cases hc : c.text with
    | none =>
      have hstep : (do
          let t ← getText c
          pure (insertHash acc (calculate_text_hash t) c) : Except PyErr _) =
          .error (.keyError "text") := by
        simp [getText, pyGet, hc]
      rw [hstep, pyBindError]
    | some t =>
      have hstep : (do
          let t' ← getText c
          pure (insertHash acc (calculate_text_hash t') c) : Except PyErr _) =
          .ok (insertHash acc (calculate_text_hash t) c) := by
        simp [getText, pyGet, hc]
      rw [hstep, pyBindOk]
      apply ih
      obtain ⟨c', hm, hn⟩ := h'
      rcases List.mem_cons.mp hm with rfl | hm'
      · rw [hc] at hn; exact absurd hn (by simp)
      · exact ⟨c', hm', hn⟩

theorem detect_exact_error (mdc : Nat) (comments : List PyComment)
    (h : ∃ c ∈ comments, c.text = none) :
    detect_exact_duplicates mdc comments = .error (.keyError "text") := by
  unfold detect_exact_duplicates
  rw [hashGroupsM_error comments h]
  rfl

theorem analyze_spam_patterns_error (st : ℚ) (mdc : Nat) (comments : List PyComment)
    (h : ∃ c ∈ comments, c.text = none) :
    analyze_spam_patterns st mdc comments = .error (.keyError "text") := by
  unfold analyze_spam_patterns
  rw [detect_exact_error mdc comments h]
  rfl

/-- C4 amended (the only change forced by the counterexample: the operations
do not default missing fields to the empty string — they raise): whenever any
input comment lacks the `text` field, `detect_exact_duplicates`,
`analyze_spam_patterns` and `process_comments` raise `KeyError('text')`
rather than returning a result (`detect_similar_duplicates` likewise raises
whenever such a comment is actually compared against a cluster). -/
theorem missing_text_field_raises (st : ℚ) (mdc : Nat) (comments : List PyComment)
    (h : ∃ c ∈ comments, c.text = none) :
    detect_exact_duplicates mdc comments = .error (.keyError "text") ∧
    analyze_spam_patterns st mdc comments = .error (.keyError "text") ∧
    process_comments st mdc comments = .error (.keyError "text") := by
  refine ⟨detect_exact_error mdc comments h, analyze_spam_patterns_error st mdc comments h, ?_⟩
  have hne : comments.isEmpty = false := by
    obtain ⟨c, hm, -⟩ := h
    cases comments
    · simp at hm
    · rfl
  unfold process_comments
  rw [hne]
  show (analyze_spam_patterns st mdc comments >>= _) = _
  rw [analyze_spam_patterns_error st mdc comments h, pyBindError]

theorem missing_text_field_raises_witness :
    detect_exact_duplicates 3 [c4NoText] = .error (.keyError "text") ∧
    analyze_spam_patterns (4/5) 3 [c4NoText] = .error (.keyError "text") ∧
    process_comments (4/5) 3 [c4NoText] = .error (.keyError "text") :=
  missing_text_field_raises (4/5) 3 [c4NoText] ⟨c4NoText, by simp, rfl⟩

/-! ## C3: similarity is not symmetric -/

/-- C3 counterexample: `SequenceMatcher`'s recursive first-longest-block
strategy is order-dependent: `similarity("ab", "bacb") = 2/3` but
`similarity("bacb", "ab") = 1/3`. -/
theorem calculate_similarity_asymmetric :
    ¬ (calculate_similarity "ab" "bacb" = calculate_similarity "bacb" "ab") := by
  have h1 : calculate_similarity "ab" "bacb" = 2/3 := by with_unfolding_all rfl
  have h2 : calculate_similarity "bacb" "ab" = 1/3 := by with_unfolding_all rfl
  rw [h1, h2]
  norm_num

/-! ## C2: near-duplicate clustering is not threshold-monotonic -/

def c2A : PyComment := ⟨some "1", some "ab", some "u1", none, none, none, none⟩

def c2B1 : PyComment := ⟨some "2", some "abcd", some "u2", none, none, none, none⟩

def c2B2 : PyComment := ⟨some "3", some "bcd", some "u3", none, none, none, none⟩

def c2B3 : PyComment := ⟨some "4", some "bcd", some "u4", none, none, none, none⟩

/-- C2 counterexample: on `["ab", "abcd", "bcd", "bcd"]` with thresholds
`t1 = 1/2 < t2 = 4/5`, the comment `"abcd"` lies in the single reported
cluster at the higher threshold, but at the lower threshold the greedy pass
splits the input into two clusters of size two and reports nothing, so
membership in reported clusters is not preserved when lowering the
threshold. -/
theorem detect_similar_not_threshold_monotonic :
    ¬ (∀ (comments : List PyComment) (t1 t2 : ℚ), t1 < t2 →
        ∀ (gs2 : List (List PyComment)) (g : List PyComment) (c : PyComment),
          detect_similar_duplicates t2 3 comments = .ok gs2 → g ∈ gs2 → c ∈ g →
          ∃ gs1 g', detect_similar_duplicates t1 3 comments = .ok gs1 ∧
            g' ∈ gs1 ∧ c ∈ g') := by
  intro hmono
  have h2 : detect_similar_duplicates (4/5) 3 [c2A, c2B1, c2B2, c2B3] =
      .ok [[c2B1, c2B2, c2B3]] := by with_unfolding_all rfl
  have h1 : detect_similar_duplicates (1/2) 3 [c2A, c2B1, c2B2, c2B3] =
      .ok [] := by with_unfolding_all rfl
  obtain ⟨gs1, g', hok, hg', -⟩ :=
    hmono [c2A, c2B1, c2B2, c2B3] (1/2) (4/5) (by norm_num)
      [[c2B1, c2B2, c2B3]] [c2B1, c2B2, c2B3] c2B1 h2 (by simp) (by simp)
  rw [h1] at hok
  obtain rfl : gs1 = [] := (Except.ok.injEq _ _).mp hok.symm
  simp at hg'


/-! ## Bounds of the `SequenceMatcher` embedding (towards C3) -/

theorem suffLen_pos_bound (a b : List Char) (alo blo : Nat) :
    ∀ i j, 0 < suffLen a b alo blo i j →
      alo + suffLen a b alo blo i j ≤ i + 1 ∧ blo + suffLen a b alo blo i j ≤ j + 1 := by
  intro i
  induction i with
  | zero =>
    intro j
    by_cases hguard : (0 < alo || j < blo) = true
    · simp only [suffLen, if_pos hguard]; omega
    · simp only [suffLen, if_neg hguard]
      simp only [Bool.or_eq_true, decide_eq_true_eq, not_or] at hguard
      cases ha : a.get? 0 with
      | none => dsimp only; omega
      | some ca =>
        cases hb : b.get? j with
        | none => dsimp only; omega
        | some cb =>
          dsimp only
          by_cases hc : ca = cb
          · rw [if_pos hc]; omega
          · rw [if_neg hc]; omega
  | succ i ih =>
    intro j
    by_cases hguard : (i + 1 < alo || j < blo) = true
    · simp only [suffLen, if_pos hguard]; omega
    · simp only [suffLen, if_neg hguard]
      simp only [Bool.or_eq_true, decide_eq_true_eq, not_or] at hguard
      cases ha : a.get? (i + 1) with
      | none => dsimp only; omega
      | some ca =>
        cases hb : b.get? j with
        | none => dsimp only; omega
        | some cb =>
          dsimp only
          by_cases hc : ca = cb
          · rw [if_pos hc]
            cases j with
            | zero => dsimp only; omega
            | succ j' =>
              dsimp only
              by_cases hk : 0 < suffLen a b alo blo i j'
              · have := ih j' hk
                omega
              · omega
          · rw [if_neg hc]; omega

theorem flm_inner_invariant (a b : List Char) (alo blo ahi bhi i : Nat)
    (hi : alo ≤ i ∧ i < ahi) (lj : List Nat)
    (hlj : ∀ j ∈ lj, blo ≤ j ∧ j < bhi) :
    ∀ best : Nat × Nat × Nat,
      alo ≤ best.1 ∧ blo ≤ best.2.1 ∧
        (0 < best.2.2 → best.1 + best.2.2 ≤ ahi ∧ best.2.1 + best.2.2 ≤ bhi) →
      alo ≤ (lj.foldl (flmStep a b alo blo i) best).1 ∧
        blo ≤ (lj.foldl (flmStep a b alo blo i) best).2.1 ∧
        (0 < (lj.foldl (flmStep a b alo blo i) best).2.2 →
          (lj.foldl (flmStep a b alo blo i) best).1 +
            (lj.foldl (flmStep a b alo blo i) best).2.2 ≤ ahi ∧
          (lj.foldl (flmStep a b alo blo i) best).2.1 +
            (lj.foldl (flmStep a b alo blo i) best).2.2 ≤ bhi) := by
  induction lj with
  | nil => intro best hb; exact hb
  | cons j js ihl =>
    intro best hb
    rw [List.foldl_cons]
    refine ihl (fun j' hj' => hlj j' (List.mem_cons_of_mem j hj')) _ ?_
    have hj := hlj j (List.mem_cons_self j js)
    simp only [flmStep]
    split
    · next hlt =>
      have hk : 0 < suffLen a b alo blo i j := by omega
      have hbd := suffLen_pos_bound a b alo blo i j hk
      dsimp only
      exact ⟨by omega, by omega, fun _ => ⟨by omega, by omega⟩⟩
    · exact hb

theorem flm_invariant (a b : List Char) (alo ahi blo bhi : Nat) :
    alo ≤ (findLongestMatch a b alo ahi blo bhi).1 ∧
    blo ≤ (findLongestMatch a b alo ahi blo bhi).2.1 ∧
    (0 < (findLongestMatch a b alo ahi blo bhi).2.2 →
      (findLongestMatch a b alo ahi blo bhi).1 +
        (findLongestMatch a b alo ahi blo bhi).2.2 ≤ ahi ∧
      (findLongestMatch a b alo ahi blo bhi).2.1 +
        (findLongestMatch a b alo ahi blo bhi).2.2 ≤ bhi) := by
  unfold findLongestMatch
  refine foldl_preserve
    (fun best : Nat × Nat × Nat =>
      alo ≤ best.1 ∧ blo ≤ best.2.1 ∧
        (0 < best.2.2 → best.1 + best.2.2 ≤ ahi ∧ best.2.1 + best.2.2 ≤ bhi))
    (fun best i => (List.range' blo (bhi - blo)).foldl (flmStep a b alo blo i) best)
    (List.range' alo (ahi - alo))
    (alo, blo, 0)
    ⟨le_refl _, le_refl _, fun h => absurd h (by simp)⟩
    ?_
  intro best i hi hb
  have hi' : alo ≤ i ∧ i < ahi := by
    have := List.mem_range'_1.mp hi; omega
  refine flm_inner_invariant a b alo blo ahi bhi i hi' _ ?_ best hb
  intro j hj
  have := List.mem_range'_1.mp hj
  omega

theorem matchTotalF_le (a b : List Char) (fuel : Nat) :
    ∀ alo ahi blo bhi,
      matchTotalF a b fuel alo ahi blo bhi ≤ min (ahi - alo) (bhi - blo) := by
  induction fuel with
  | zero => intro alo ahi blo bhi; simp [matchTotalF]
  | succ f ih =>
    intro alo ahi blo bhi
    simp only [matchTotalF]
    obtain ⟨h1, h2, h3⟩ := flm_invariant a b alo ahi blo bhi
    set m := findLongestMatch a b alo ahi blo bhi with hm
    by_cases hk : m.2.2 = 0
    · rw [if_pos hk]; omega
    · rw [if_neg hk]
      obtain ⟨hA, hB⟩ := h3 (Nat.pos_of_ne_zero hk)
      have hle1 : (if alo < m.1 ∧ blo < m.2.1 then
          matchTotalF a b f alo m.1 blo m.2.1 else 0) ≤
          min (m.1 - alo) (m.2.1 - blo) := by
        split
        · exact ih alo m.1 blo m.2.1
        · omega
      have hle2 : (if m.1 + m.2.2 < ahi ∧ m.2.1 + m.2.2 < bhi then
          matchTotalF a b f (m.1 + m.2.2) ahi (m.2.1 + m.2.2) bhi else 0) ≤
          min (ahi - (m.1 + m.2.2)) (bhi - (m.2.1 + m.2.2)) := by
        split
        · exact ih (m.1 + m.2.2) ahi (m.2.1 + m.2.2) bhi
        · omega
      omega

theorem matchTotal_le (a b : List Char) :
    matchTotal a b ≤ min a.length b.length := by
  have := matchTotalF_le a b (a.length + 1) 0 a.length 0 b.length
  simpa [matchTotal] using this

theorem ratioOf_nonneg (x y : List Char) : 0 ≤ ratioOf x y := by
  unfold ratioOf
  split
  · norm_num
  · positivity

theorem ratioOf_le_one (x y : List Char) : ratioOf x y ≤ 1 := by
  unfold ratioOf
  split
  · norm_num
  · next h =>
    have h0 : 0 < x.length + y.length := Nat.pos_of_ne_zero h
    have hpos : (0 : ℚ) < (x.length : ℚ) + (y.length : ℚ) := by exact_mod_cast h0
    rw [div_le_one hpos]
    have hM := matchTotal_le x y
    exact_mod_cast (by omega : 2 * matchTotal x y ≤ x.length + y.length)


theorem suffLen_self (a : List Char) :
    ∀ m, m < a.length → suffLen a a 0 0 m m = m + 1 := by
  intro m
  induction m with
  | zero =>
    intro hm
    have hg : a[0]? = some a[0] := List.getElem?_eq_getElem hm
    simp [suffLen, hg]
  | succ m ih =>
    intro hm
    have hg : a[m + 1]? = some a[m + 1] := List.getElem?_eq_getElem hm
    simp [suffLen, hg, ih (by omega)]
    omega

theorem flmStep_k_mono (a b : List Char) (alo blo i : Nat)
    (best : Nat × Nat × Nat) (j : Nat) :
    best.2.2 ≤ (flmStep a b alo blo i best j).2.2 := by
  simp only [flmStep]
  split
  · next h => dsimp only; omega
  · exact le_refl _

theorem foldl_flmStep_mono (a b : List Char) (alo blo i : Nat) (lj : List Nat) :
    ∀ best : Nat × Nat × Nat,
      best.2.2 ≤ (lj.foldl (flmStep a b alo blo i) best).2.2 := by
  induction lj with
  | nil => intro best; exact le_refl _
  | cons j js ih =>
    intro best
    rw [List.foldl_cons]
    exact le_trans (flmStep_k_mono a b alo blo i best j) (ih _)

theorem foldl_flmStep_ge (a b : List Char) (alo blo i : Nat) (lj : List Nat)
    (j : Nat) (hj : j ∈ lj) :
    ∀ best : Nat × Nat × Nat,
      suffLen a b alo blo i j ≤ (lj.foldl (flmStep a b alo blo i) best).2.2 := by
  induction lj with
  | nil => exact absurd hj (by simp)
  | cons x xs ih =>
    intro best
    rw [List.foldl_cons]
    rcases List.mem_cons.mp hj with rfl | hj'
    · refine le_trans ?_ (foldl_flmStep_mono a b alo blo i xs _)
      simp only [flmStep]
      split
      · exact le_refl _
      · next h => omega
    · exact ih hj' _

theorem foldl_outer_mono (a b : List Char) (alo blo bhi : Nat) (li : List Nat) :
    ∀ best : Nat × Nat × Nat,
      best.2.2 ≤ (li.foldl (fun best i =>
        (List.range' blo (bhi - blo)).foldl (flmStep a b alo blo i) best) best).2.2 := by
  induction li with
  | nil => intro best; exact le_refl _
  | cons x xs ih =>
    intro best
    rw [List.foldl_cons]
    exact le_trans (foldl_flmStep_mono a b alo blo x _ best) (ih _)

theorem flm_k_ge (a b : List Char) (alo ahi blo bhi i j : Nat)
    (hi : i ∈ List.range' alo (ahi - alo)) (hj : j ∈ List.range' blo (bhi - blo)) :
    suffLen a b alo blo i j ≤ (findLongestMatch a b alo ahi blo bhi).2.2 := by
  unfold findLongestMatch
  suffices H : ∀ (li : List Nat), i ∈ li → ∀ best : Nat × Nat × Nat,
      suffLen a b alo blo i j ≤
        (li.foldl (fun best i =>
          (List.range' blo (bhi - blo)).foldl (flmStep a b alo blo i) best) best).2.2 from
    H (List.range' alo (ahi - alo)) hi (alo, blo, 0)
  intro li hli
  induction li with
  | nil => exact absurd hli (by simp)
  | cons x xs ih =>
    intro best
    rw [List.foldl_cons]
    rcases List.mem_cons.mp hli with rfl | hli'
    · exact le_trans (foldl_flmStep_ge a b alo blo i _ j hj best)
        (foldl_outer_mono a b alo blo bhi xs _)
    · exact ih hli' _

theorem flm_self (a : List Char) (h : a ≠ []) :
    findLongestMatch a a 0 a.length 0 a.length = (0, 0, a.length) := by
  have hn : 0 < a.length := List.length_pos.mpr h
  obtain ⟨h1, h2, h3⟩ := flm_invariant a a 0 a.length 0 a.length
  have hmem : a.length - 1 ∈ List.range' 0 (a.length - 0) := by
    rw [List.mem_range'_1]; omega
  have hge := flm_k_ge a a 0 a.length 0 a.length (a.length - 1) (a.length - 1) hmem hmem
  rw [suffLen_self a (a.length - 1) (by omega)] at hge
  have hkpos : 0 < (findLongestMatch a a 0 a.length 0 a.length).2.2 := by omega
  obtain ⟨hA, hB⟩ := h3 hkpos
  have e1 : (findLongestMatch a a 0 a.length 0 a.length).1 = 0 := by omega
  have e2 : (findLongestMatch a a 0 a.length 0 a.length).2.1 = 0 := by omega
  have e3 : (findLongestMatch a a 0 a.length 0 a.length).2.2 = a.length := by omega
  rw [show findLongestMatch a a 0 a.length 0 a.length =
    ((findLongestMatch a a 0 a.length 0 a.length).1,
     (findLongestMatch a a 0 a.length 0 a.length).2.1,
     (findLongestMatch a a 0 a.length 0 a.length).2.2) from rfl, e1, e2, e3]

theorem matchTotal_self (a : List Char) (h : a ≠ []) : matchTotal a a = a.length := by
  have hn : 0 < a.length := List.length_pos.mpr h
  unfold matchTotal
  simp only [matchTotalF, flm_self a h]
  rw [if_neg (by omega : ¬(a.length = 0)), if_neg (by omega : ¬(0 < 0 ∧ 0 < 0)),
    if_neg (by omega : ¬(0 + a.length < a.length ∧ 0 + a.length < a.length))]
  omega

theorem ratioOf_self (a : List Char) (h : a ≠ []) : ratioOf a a = 1 := by
  have hn : 0 < a.length := List.length_pos.mpr h
  unfold ratioOf
  rw [if_neg (by omega), matchTotal_self a h]
  have hq : (0 : ℚ) < (a.length : ℚ) := by exact_mod_cast hn
  rw [div_eq_one_iff_eq (by linarith)]
  ring

/-- C3 amended (the only change forced by the counterexample: symmetry is
dropped — the Ratcliff/Obershelp implementation is order-dependent): the
similarity always lies in `[0, 1]`, and equals `1` whenever the two texts are
equal and normalize to a nonempty string. -/
theorem calculate_similarity_bounds (t1 t2 : String) :
    0 ≤ calculate_similarity t1 t2 ∧ calculate_similarity t1 t2 ≤ 1 ∧
    (t1 = t2 ∧ preprocess_text t1 ≠ "" → calculate_similarity t1 t2 = 1) := by
  refine ⟨?_, ?_, ?_⟩
  · unfold calculate_similarity
    split
    · norm_num
    · dsimp only
      split
      · norm_num
      · exact ratioOf_nonneg _ _
  · unfold calculate_similarity
    split
    · norm_num
    · dsimp only
      split
      · norm_num
      · exact ratioOf_le_one _ _
  · rintro ⟨rfl, hne⟩
    have ht : ¬(t1 = "") := by
      intro he
      exact hne (by rw [he]; rfl)
    have hd : (preprocess_text t1).data ≠ [] := by
      intro hdat
      apply hne
      rw [show preprocess_text t1 = String.mk (preprocess_text t1).data from rfl, hdat]
    unfold calculate_similarity
    rw [if_neg (by simp [ht])]
    dsimp only
    rw [if_neg (by simp [hne])]
    exact ratioOf_self _ hd

theorem calculate_similarity_bounds_witness :
    ("hi" = "hi" ∧ preprocess_text "hi" ≠ "") ∧
    (0 ≤ calculate_similarity "hi" "hi" ∧ calculate_similarity "hi" "hi" ≤ 1 ∧
      calculate_similarity "hi" "hi" = 1) := by
  have hp : ("hi" : String) = "hi" ∧ preprocess_text "hi" ≠ "" :=
    ⟨rfl, by with_unfolding_all decide⟩
  obtain ⟨b1, b2, b3⟩ := calculate_similarity_bounds "hi" "hi"
  exact ⟨hp, b1, b2, b3 hp⟩


/-! ## C2 (amended): the greedy clustering always covers every comment -/

theorem pyPure {α : Type} (a : α) : (pure a : Except PyErr α) = .ok a := rfl

theorem tryJoin_ok (st : ℚ) (c : PyComment) (t : String) (hc : c.text = some t) :
    ∀ cs : List (List PyComment),
      (∀ g ∈ cs, ∃ r rs, g = r :: rs ∧ r.text.isSome) →
      (tryJoin st c cs = .ok none ∨
       ∃ l1 g l2, cs = l1 ++ g :: l2 ∧
         tryJoin st c cs = .ok (some (l1 ++ (g ++ [c]) :: l2))) := by
  intro cs
  induction cs with
  | nil => intro _; exact Or.inl rfl
  | cons g gs ih =>
    intro hwf
    obtain ⟨r, rs, hg, hr⟩ := hwf g (by simp)
    obtain ⟨rt, hrt⟩ := Option.isSome_iff_exists.mp hr
    by_cases hsim : st ≤ calculate_similarity t rt
    · right
      refine ⟨[], g, gs, by simp, ?_⟩
      simp only [tryJoin, hg, getText, pyGet, hc, pyBindOk, pyHead, hrt]
      rw [if_pos hsim]
      simp [hg, pyPure]
    · rcases ih (fun g' hg' => hwf g' (List.mem_cons_of_mem g hg')) with hnone | hsome
      · left
        simp only [tryJoin, hg, getText, pyGet, hc, pyBindOk, pyHead, hrt]
        rw [if_neg hsim, hnone, pyBindOk]
        rfl
      · obtain ⟨l1, g', l2, hcs, hok⟩ := hsome
        right
        refine ⟨g :: l1, g', l2, by rw [hcs]; rfl, ?_⟩
        simp only [tryJoin, hg, getText, pyGet, hc, pyBindOk, pyHead, hrt]
        rw [if_neg hsim, hok, pyBindOk]
        rfl

theorem similarClustersM_fold (st : ℚ) (Q : PyComment → Prop) :
    ∀ (l : List PyComment) (acc : List (List PyComment)),
      (∀ c ∈ l, c.text.isSome ∧ Q c) →
      (∀ g ∈ acc, ∃ r rs, g = r :: rs ∧ r.text.isSome) →
      (∀ g ∈ acc, ∀ x ∈ g, Q x) →
      ∃ cs, l.foldlM (fun clusters c => do
          match ← tryJoin st c clusters with
          | some cs => pure cs
          | none => pure (clusters ++ [[c]])) acc = .ok cs ∧
        (∀ g ∈ cs, ∃ r rs, g = r :: rs ∧ r.text.isSome) ∧
        (∀ g ∈ cs, ∀ x ∈ g, Q x) ∧
        (∀ x : PyComment, ((∃ g ∈ acc, x ∈ g) ∨ x ∈ l) → ∃ g ∈ cs, x ∈ g) := by
  intro l
  induction l with
  | nil =>
    intro acc _ hwf hQ
    refine ⟨acc, rfl, hwf, hQ, ?_⟩
    intro x hx
    rcases hx with ⟨g, hg, hxg⟩ | hx
    · exact ⟨g, hg, hxg⟩
    · simp at hx
  | cons c l' ih =>
    intro acc hl hwf hQ
    obtain ⟨hct, hcQ⟩ := hl c (by simp)
    obtain ⟨t, ht⟩ := Option.isSome_iff_exists.mp hct
    rw [List.foldlM_cons]
    have hl' : ∀ c' ∈ l', c'.text.isSome ∧ Q c' :=
      fun c' hc' => hl c' (List.mem_cons_of_mem c hc')
    rcases tryJoin_ok st c t ht acc hwf with hnone | hsome
    · have hstep : (do
          match ← tryJoin st c acc with
          | some cs => pure cs
          | none => pure (acc ++ [[c]]) : Except PyErr _) = .ok (acc ++ [[c]]) := by
        rw [hnone]; rfl
      rw [hstep, pyBindOk]
      have hwf2 : ∀ g ∈ acc ++ [[c]], ∃ r rs, g = r :: rs ∧ r.text.isSome := by
        intro g hg
        rcases List.mem_append.mp hg with hg | hg
        · exact hwf g hg
        · simp only [List.mem_singleton] at hg
          exact ⟨c, [], by rw [hg], hct⟩
      have hQ2 : ∀ g ∈ acc ++ [[c]], ∀ x ∈ g, Q x := by
        intro g hg x hx
        rcases List.mem_append.mp hg with hg | hg
        · exact hQ g hg x hx
        · simp only [List.mem_singleton] at hg
          rw [hg] at hx
          simp only [List.mem_singleton] at hx
          rw [hx]
          exact hcQ
      obtain ⟨cs, hok, hwf', hQ', hcov⟩ := ih (acc ++ [[c]]) hl' hwf2 hQ2
      refine ⟨cs, hok, hwf', hQ', ?_⟩
      intro x hx
      apply hcov
      rcases hx with ⟨g, hg, hxg⟩ | hx
      · exact Or.inl ⟨g, List.mem_append_left _ hg, hxg⟩
      · rcases List.mem_cons.mp hx with rfl | hx'
        · exact Or.inl ⟨[x], List.mem_append_right _ (by simp), by simp⟩
        · exact Or.inr hx'
    · obtain ⟨l1, g, l2, hacc, hok⟩ := hsome
      have hstep : (do
          match ← tryJoin st c acc with
          | some cs => pure cs
          | none => pure (acc ++ [[c]]) : Except PyErr _) =
          .ok (l1 ++ (g ++ [c]) :: l2) := by
        rw [hok]; rfl
      rw [hstep, pyBindOk]
      have hgacc : g ∈ acc := by
        rw [hacc]
        exact List.mem_append_right _ (List.mem_cons_self g l2)
      obtain ⟨r, rs, hgr, hrt⟩ := hwf g hgacc
      have hsubacc : ∀ g' ∈ l1 ++ (g ++ [c]) :: l2, (g' = g ++ [c]) ∨ g' ∈ acc := by
        intro g' hg'
        rcases List.mem_append.mp hg' with hg' | hg'
        · exact Or.inr (by rw [hacc]; exact List.mem_append_left _ hg')
        · rcases List.mem_cons.mp hg' with rfl | hg''
          · exact Or.inl rfl
          · refine Or.inr ?_
            rw [hacc]
            exact List.mem_append_right _ (List.mem_cons_of_mem g hg'')
      have hwf2 : ∀ g' ∈ l1 ++ (g ++ [c]) :: l2, ∃ r' rs', g' = r' :: rs' ∧ r'.text.isSome := by
        intro g' hg'
        rcases hsubacc g' hg' with hge | hg''
        · exact ⟨r, rs ++ [c], by rw [hge, hgr]; rfl, hrt⟩
        · exact hwf g' hg''
      have hQ2 : ∀ g' ∈ l1 ++ (g ++ [c]) :: l2, ∀ x ∈ g', Q x := by
        intro g' hg' x hx
        rcases hsubacc g' hg' with hge | hg''
        · rw [hge] at hx
          rcases List.mem_append.mp hx with hx | hx
          · exact hQ g hgacc x hx
          · simp only [List.mem_singleton] at hx
            rw [hx]
            exact hcQ
        · exact hQ g' hg'' x hx
      obtain ⟨cs, hokf, hwf', hQ', hcov⟩ := ih (l1 ++ (g ++ [c]) :: l2) hl' hwf2 hQ2
      refine ⟨cs, hokf, hwf', hQ', ?_⟩
      intro x hx
      apply hcov
      rcases hx with ⟨g', hg', hxg⟩ | hx
      · rw [hacc] at hg'
        rcases List.mem_append.mp hg' with hg' | hg'
        · exact Or.inl ⟨g', List.mem_append_left _ hg', hxg⟩
        · rcases List.mem_cons.mp hg' with rfl | hg''
          · refine Or.inl ⟨g' ++ [c], List.mem_append_right _ (List.mem_cons_self _ _),
              List.mem_append_left _ hxg⟩
          · exact Or.inl ⟨g', List.mem_append_right _ (List.mem_cons_of_mem _ hg''), hxg⟩
      · rcases List.mem_cons.mp hx with rfl | hx'
        · exact Or.inl ⟨g ++ [x], List.mem_append_right _ (List.mem_cons_self _ _),
            List.mem_append_right _ (by simp)⟩
        · exact Or.inr hx'

/-- C2 amended (the counterexample forces restricting the monotonicity to the
unfiltered clustering): at every threshold the greedy pass places every input
comment in some cluster — so membership in the clustering before the
`min_duplicate_count` size filter is trivially preserved when lowering the
threshold — while membership in the reported (size-filtered) clusters of
`detect_similar_duplicates` is not threshold-monotonic. -/
theorem similarClusters_membership (st : ℚ) (comments : List PyComment)
    (h : ∀ c ∈ comments, c.text.isSome) :
    ∃ cs, similarClustersM st comments = .ok cs ∧
      ∀ c ∈ comments, ∃ g ∈ cs, c ∈ g := by
  obtain ⟨cs, hok, -, -, hcov⟩ := similarClustersM_fold st (fun _ => True) comments []
    (fun c hc => ⟨h c hc, trivial⟩) (by simp) (by simp)
  exact ⟨cs, hok, fun c hc => hcov c (Or.inr hc)⟩

theorem similarClusters_membership_witness :
    ∃ cs, similarClustersM (4/5) [c2A] = .ok cs ∧
      ∀ c ∈ [c2A], ∃ g ∈ cs, c ∈ g :=
  similarClusters_membership (4/5) [c2A] (by decide)

/-! ## C5: characterization of `detect_exact_duplicates` -/

theorem insertHash_not_mem (h : String) (c : PyComment) :
    ∀ gs : List (String × List PyComment),
      h ∉ gs.map Prod.fst → insertHash gs h c = gs ++ [(h, [c])] := by
  intro gs
  induction gs with
  | nil => intro _; rfl
  | cons p rest ih =>
    intro hnm
    obtain ⟨k, g⟩ := p
    have hk : ¬(k = h) := by
      intro he
      exact hnm (by simp [he])
    simp only [insertHash, if_neg hk]
    rw [ih (fun hm => hnm (by simp [hm]))]
    rfl

theorem insertHash_mem (h : String) (c : PyComment) :
    ∀ gs : List (String × List PyComment),
      h ∈ gs.map Prod.fst →
      ∃ l1 g l2, gs = l1 ++ (h, g) :: l2 ∧ h ∉ l1.map Prod.fst ∧
        insertHash gs h c = l1 ++ (h, g ++ [c]) :: l2 := by
  intro gs
  induction gs with
  | nil => intro hm; simp at hm
  | cons p rest ih =>
    intro hm
    obtain ⟨k, g⟩ := p
    by_cases hk : k = h
    · subst hk
      exact ⟨[], g, rest, by simp, by simp, by simp [insertHash]⟩
    · have hm' : h ∈ rest.map Prod.fst := by
        rcases List.mem_cons.mp hm with he | hm'
        · exact absurd he.symm hk
        · exact hm'
      obtain ⟨l1, g', l2, hrest, hnm1, hins⟩ := ih hm'
      refine ⟨(k, g) :: l1, g', l2, by rw [hrest]; rfl, ?_, ?_⟩
      · intro hmm
        rcases List.mem_cons.mp hmm with he | hmm'
        · exact hk he.symm
        · exact hnm1 hmm'
      · simp only [insertHash, if_neg hk]
        rw [hins]
        rfl

theorem hashGroupsM_spec (comments : List PyComment)
    (h : ∀ c ∈ comments, c.text.isSome) :
    ∃ gs, hashGroupsM comments = .ok gs ∧
      (gs.map Prod.fst).Nodup ∧
      (∀ p ∈ gs, p.2 = comments.filter
          (fun c => decide (c.text.map calculate_text_hash = some p.1)) ∧ p.2 ≠ []) ∧
      (∀ c ∈ comments, ∃ p ∈ gs, c ∈ p.2) := by
  induction comments using List.reverseRecOn with
  | nil => exact ⟨[], rfl, by simp, by simp, by simp⟩
  | append_singleton l c ihl =>
    have hl : ∀ c' ∈ l, c'.text.isSome := fun c' hc' => h c' (by simp [hc'])
    obtain ⟨gs, hok, hnd, hchar, hcov⟩ := ihl hl
    obtain ⟨t, ht⟩ := Option.isSome_iff_exists.mp (h c (by simp))
    have hfold : hashGroupsM (l ++ [c]) = .ok (insertHash gs (calculate_text_hash t) c) := by
      unfold hashGroupsM
      rw [List.foldlM_append]
      unfold hashGroupsM at hok
      rw [hok, pyBindOk, List.foldlM_cons]
      simp [getText, pyGet, ht, pyBindOk, pyPure]
    have hmemchar : ∀ p ∈ gs, ∀ x ∈ p.2,
        x ∈ l ∧ x.text.map calculate_text_hash = some p.1 := by
      intro p hp x hx
      obtain ⟨hfil, -⟩ := hchar p hp
      rw [hfil] at hx
      have hmf := List.mem_filter.mp hx
      exact ⟨hmf.1, by simpa using hmf.2⟩
    by_cases hmem : calculate_text_hash t ∈ gs.map Prod.fst
    · obtain ⟨l1, g, l2, hgs, hnm1, hins⟩ := insertHash_mem (calculate_text_hash t) c gs hmem
      rw [hins] at hfold
      have hkeys : (l1 ++ (calculate_text_hash t, g ++ [c]) :: l2).map Prod.fst =
          gs.map Prod.fst := by
        rw [hgs]; simp
      have hnotl2 : calculate_text_hash t ∉ l2.map Prod.fst := by
        have hnd' := hnd
        rw [hgs] at hnd'
        simp only [List.map_append, List.map_cons] at hnd'
        exact (List.nodup_cons.mp (List.nodup_append.mp hnd').2.1).1
      have hggs : (calculate_text_hash t, g) ∈ gs := by
        rw [hgs]
        exact List.mem_append_right _ (List.mem_cons_self _ _)
      refine ⟨l1 ++ (calculate_text_hash t, g ++ [c]) :: l2, hfold, ?_, ?_, ?_⟩
      · rw [hkeys]; exact hnd
      · intro p hp
        rcases List.mem_append.mp hp with hp1 | hp2
        · have hpgs : p ∈ gs := by rw [hgs]; exact List.mem_append_left _ hp1
          have hkne : ¬(calculate_text_hash t = p.1) := by
            intro he
            apply hnm1
            rw [he]
            exact List.mem_map_of_mem Prod.fst hp1
          obtain ⟨hfil, hne⟩ := hchar p hpgs
          refine ⟨?_, hne⟩
          rw [List.filter_append, hfil]
          simp [ht, hkne]
        · rcases List.mem_cons.mp hp2 with rfl | hp3
          · obtain ⟨hfil, -⟩ := hchar (calculate_text_hash t, g) hggs
            simp only at hfil
            refine ⟨?_, by simp⟩
            simp only
            rw [List.filter_append, hfil]
            simp [ht]
          · have hpgs : p ∈ gs := by
              rw [hgs]
              exact List.mem_append_right _ (List.mem_cons_of_mem _ hp3)
            have hkne : ¬(calculate_text_hash t = p.1) := by
              intro he
              apply hnotl2
              rw [he]
              exact List.mem_map_of_mem Prod.fst hp3
            obtain ⟨hfil, hne⟩ := hchar p hpgs
            refine ⟨?_, hne⟩
            rw [List.filter_append, hfil]
            simp [ht, hkne]
      · intro x hx
        rcases List.mem_append.mp hx with hxl | hxc
        · obtain ⟨p, hp, hxp⟩ := hcov x hxl
          rw [hgs] at hp
          rcases List.mem_append.mp hp with hp1 | hp2
          · exact ⟨p, List.mem_append_left _ hp1, hxp⟩
          · rcases List.mem_cons.mp hp2 with rfl | hp3
            · exact ⟨(calculate_text_hash t, g ++ [c]),
                List.mem_append_right _ (List.mem_cons_self _ _),
                List.mem_append_left _ hxp⟩
            · exact ⟨p, List.mem_append_right _ (List.mem_cons_of_mem _ hp3), hxp⟩
        · simp only [List.mem_singleton] at hxc
          refine ⟨(calculate_text_hash t, g ++ [c]),
            List.mem_append_right _ (List.mem_cons_self _ _), ?_⟩
          rw [hxc]
          exact List.mem_append_right _ (by simp)
    · rw [insertHash_not_mem (calculate_text_hash t) c gs hmem] at hfold
      have hfresh : l.filter
          (fun x => decide (x.text.map calculate_text_hash = some (calculate_text_hash t))) = [] := by
        rw [List.filter_eq_nil_iff]
        intro x hxl hxp
        obtain ⟨p, hp, hxm⟩ := hcov x hxl
        obtain ⟨-, hxk⟩ := hmemchar p hp x hxm
        apply hmem
        have : p.1 = calculate_text_hash t := by
          rw [hxk] at hxp
          simpa using hxp
        rw [← this]
        exact List.mem_map_of_mem Prod.fst hp
      refine ⟨gs ++ [(calculate_text_hash t, [c])], hfold, ?_, ?_, ?_⟩
      · simp only [List.map_append, List.map_cons, List.map_nil]
        rw [List.nodup_append]
        refine ⟨hnd, by simp, ?_⟩
        intro k hk1 hk2
        simp only [List.mem_cons, List.not_mem_nil, or_false] at hk2
        rw [hk2] at hk1
        exact hmem hk1
      · intro p hp
        rcases List.mem_append.mp hp with hp1 | hp2
        · have hkne : ¬(calculate_text_hash t = p.1) := by
            intro he
            apply hmem
            rw [he]
            exact List.mem_map_of_mem Prod.fst hp1
          obtain ⟨hfil, hne⟩ := hchar p hp1
          refine ⟨?_, hne⟩
          rw [List.filter_append, hfil]
          simp [ht, hkne]
        · simp only [List.mem_singleton] at hp2
          subst hp2
          refine ⟨?_, by simp⟩
          simp only
          rw [List.filter_append, hfresh]
          simp [ht]
      · intro x hx
        rcases List.mem_append.mp hx with hxl | hxc
        · obtain ⟨p, hp, hxp⟩ := hcov x hxl
          exact ⟨p, List.mem_append_left _ hp, hxp⟩
        · simp only [List.mem_singleton] at hxc
          refine ⟨(calculate_text_hash t, [c]), List.mem_append_right _ (by simp), ?_⟩
          rw [hxc]
          simp

def c5k1 : PyComment := ⟨some "1", some "정말 좋은 영상이네요!", some "user1", none, none, none, none⟩

def c5k2 : PyComment := ⟨some "2", some "정말 좋은 영상이네요!", some "user2", none, none, none, none⟩

def c5k3 : PyComment := ⟨some "3", some "정말 좋은 영상이네요!", some "user3", none, none, none, none⟩

/-- C5 (confirmed): `detect_exact_duplicates` reports exactly the buckets of
comments sharing the same normalized-text digest whose size is at least
`min_duplicate_count`, each bucket listing its members in input order (it is
the input filtered to that digest); every comment whose digest class reaches
the minimum size is in some reported bucket; and in particular, with
`min_duplicate_count = 3`, two identical comments yield no reported group
while a third identical comment yields exactly one group of all three. -/
theorem detect_exact_duplicates_spec (mdc : Nat) (comments : List PyComment)
    (h : ∀ c ∈ comments, c.text.isSome) :
    (∃ gs, detect_exact_duplicates mdc comments = .ok gs ∧
      (∀ p ∈ gs, mdc ≤ p.2.length ∧ p.2 = comments.filter
          (fun c => decide (c.text.map calculate_text_hash = some p.1))) ∧
      (∀ c ∈ comments, mdc ≤ (comments.filter (fun c' =>
          decide (c'.text.map calculate_text_hash = c.text.map calculate_text_hash))).length →
        ∃ p ∈ gs, c ∈ p.2)) ∧
    detect_exact_duplicates 3 [c5k1, c5k2] = .ok [] ∧
    detect_exact_duplicates 3 [c5k1, c5k2, c5k3] =
      .ok [(calculate_text_hash "정말 좋은 영상이네요!", [c5k1, c5k2, c5k3])] := by
  refine ⟨?_, by with_unfolding_all rfl, by with_unfolding_all rfl⟩
  obtain ⟨gs0, hok, -, hchar, hcov⟩ := hashGroupsM_spec comments h
  have hde : detect_exact_duplicates mdc comments =
      .ok (gs0.filter (fun p => mdc ≤ p.2.length)) := by
    unfold detect_exact_duplicates
    rw [hok, pyBindOk]
    rfl
  refine ⟨gs0.filter (fun p => mdc ≤ p.2.length), hde, ?_, ?_⟩
  · intro p hp
    have hmf := List.mem_filter.mp hp
    exact ⟨by simpa using hmf.2, (hchar p hmf.1).1⟩
  · intro c hc hbig
    obtain ⟨p, hp, hcp⟩ := hcov c hc
    obtain ⟨hfil, -⟩ := hchar p hp
    have hck : c.text.map calculate_text_hash = some p.1 := by
      rw [hfil] at hcp
      simpa using (List.mem_filter.mp hcp).2
    have hsame : comments.filter (fun c' =>
        decide (c'.text.map calculate_text_hash = c.text.map calculate_text_hash)) =
        comments.filter (fun c' =>
          decide (c'.text.map calculate_text_hash = some p.1)) := by
      apply List.filter_congr
      intro x _
      rw [hck]
    rw [hsame, ← hfil] at hbig
    refine ⟨p, List.mem_filter.mpr ⟨hp, by simpa using hbig⟩, hcp⟩

theorem detect_exact_duplicates_spec_witness :
    (∃ gs, detect_exact_duplicates 3 [c5k1, c5k2, c5k3] = .ok gs ∧
      (∀ p ∈ gs, 3 ≤ p.2.length ∧ p.2 = [c5k1, c5k2, c5k3].filter
          (fun c => decide (c.text.map calculate_text_hash = some p.1))) ∧
      (∀ c ∈ [c5k1, c5k2, c5k3], 3 ≤ ([c5k1, c5k2, c5k3].filter (fun c' =>
          decide (c'.text.map calculate_text_hash = c.text.map calculate_text_hash))).length →
        ∃ p ∈ gs, c ∈ p.2)) ∧
    detect_exact_duplicates 3 [c5k1, c5k2] = .ok [] ∧
    detect_exact_duplicates 3 [c5k1, c5k2, c5k3] =
      .ok [(calculate_text_hash "정말 좋은 영상이네요!", [c5k1, c5k2, c5k3])] :=
  detect_exact_duplicates_spec 3 [c5k1, c5k2, c5k3] (by decide)

/-! ## C9: normalization invariants and idempotence -/

/-- No two adjacent spaces. -/
def noDoubleSpace : List Char → Bool
  | c :: d :: r => !(c == ' ' && d == ' ') && noDoubleSpace (d :: r)
  | _ => true

theorem pyLowerChar_idem (c : Char) : pyLowerChar (pyLowerChar c) = pyLowerChar c := by
  have hd : pyLowerChar c =
      if 65 ≤ c.toNat ∧ c.toNat ≤ 90 then Char.ofNat (c.toNat + 32) else c := rfl
  by_cases h : 65 ≤ c.toNat ∧ c.toNat ≤ 90
  · rw [hd, if_pos h]
    obtain ⟨h1, h2⟩ := h
    generalize c.toNat = n at h1 h2 ⊢
    interval_cases n <;> decide
  · rw [hd, if_neg h, hd, if_neg h]

theorem mem_map_lower_fixed (l : List Char) :
    ∀ c ∈ l.map pyLowerChar, pyLowerChar c = c := by
  intro c hc
  obtain ⟨x, -, rfl⟩ := List.mem_map.mp hc
  exact pyLowerChar_idem x

theorem collapseWs_chars :
    ∀ l : List Char, ∀ c ∈ collapseWs l,
      c = ' ' ∨ (c ∈ l ∧ pyIsSpace c = false) := by
  intro l
  induction l with
  | nil => simp [collapseWs]
  | cons a tail ih =>
    cases tail with
    | nil =>
      intro c hc
      by_cases ha : pyIsSpace a
      · simp only [collapseWs, if_pos ha, List.mem_singleton] at hc
        exact Or.inl hc
      · simp only [collapseWs, if_neg ha, List.mem_singleton] at hc
        refine Or.inr ⟨by simp [hc], ?_⟩
        rw [hc]
        simpa using ha
    | cons d r =>
      intro c hc
      by_cases ha : pyIsSpace a
      · by_cases hd2 : pyIsSpace d
        · rw [show collapseWs (a :: d :: r) = collapseWs (d :: r) from by
            simp [collapseWs, ha, hd2]] at hc
          rcases ih c hc with h1 | ⟨h2, h3⟩
          · exact Or.inl h1
          · exact Or.inr ⟨List.mem_cons_of_mem a h2, h3⟩
        · rw [show collapseWs (a :: d :: r) = ' ' :: collapseWs (d :: r) from by
            simp [collapseWs, ha, hd2]] at hc
          rcases List.mem_cons.mp hc with rfl | hc'
          · exact Or.inl rfl
          · rcases ih c hc' with h1 | ⟨h2, h3⟩
            · exact Or.inl h1
            · exact Or.inr ⟨List.mem_cons_of_mem a h2, h3⟩
      · rw [show collapseWs (a :: d :: r) = a :: collapseWs (d :: r) from by
          simp [collapseWs, ha]] at hc
        rcases List.mem_cons.mp hc with rfl | hc'
        · refine Or.inr ⟨by simp, by simpa using ha⟩
        · rcases ih c hc' with h1 | ⟨h2, h3⟩
          · exact Or.inl h1
          · exact Or.inr ⟨List.mem_cons_of_mem a h2, h3⟩

theorem collapseWs_head_of_not_space (d : Char) (r : List Char)
    (hd : ¬(pyIsSpace d = true)) : (collapseWs (d :: r)).head? = some d := by
  cases r with
  | nil => simp [collapseWs, hd]
  | cons e r' => simp [collapseWs, hd]

theorem noDoubleSpace_cons (c : Char) (l : List Char) (hl : noDoubleSpace l = true)
    (h : ∀ x, l.head? = some x → ¬(c = ' ' ∧ x = ' ')) :
    noDoubleSpace (c :: l) = true := by
  cases l with
  | nil => rfl
  | cons d r =>
    have hcd := h d rfl
    simp only [noDoubleSpace, Bool.and_eq_true, Bool.not_eq_true']
    refine ⟨?_, hl⟩
    by_cases hc : c = ' '
    · by_cases hd2 : d = ' '
      · exact absurd ⟨hc, hd2⟩ hcd
      · simp [hd2]
    · simp [hc]

theorem collapseWs_noDouble : ∀ l : List Char, noDoubleSpace (collapseWs l) = true := by
  intro l
  induction l with
  | nil => rfl
  | cons a tail ih =>
    cases tail with
    | nil =>
      by_cases ha : pyIsSpace a
      · simp only [collapseWs, if_pos ha]; rfl
      · simp only [collapseWs, if_neg ha]; rfl
    | cons d r =>
      by_cases ha : pyIsSpace a
      · by_cases hd2 : pyIsSpace d
        · rw [show collapseWs (a :: d :: r) = collapseWs (d :: r) from by
            simp [collapseWs, ha, hd2]]
          exact ih
        · rw [show collapseWs (a :: d :: r) = ' ' :: collapseWs (d :: r) from by
            simp [collapseWs, ha, hd2]]
          refine noDoubleSpace_cons _ _ ih ?_
          intro x hx
          rw [collapseWs_head_of_not_space d r hd2] at hx
          rintro ⟨-, hx2⟩
          apply hd2
          have : d = x := by
            injection hx
          rw [this, hx2]
          decide
      · rw [show collapseWs (a :: d :: r) = a :: collapseWs (d :: r) from by
          simp [collapseWs, ha]]
        refine noDoubleSpace_cons _ _ ih ?_
        intro x hx
        rintro ⟨hasp, -⟩
        apply ha
        rw [hasp]
        decide

theorem noDoubleSpace_tail (c : Char) (l : List Char)
    (h : noDoubleSpace (c :: l) = true) : noDoubleSpace l = true := by
  cases l with
  | nil => rfl
  | cons d r =>
    simp only [noDoubleSpace, Bool.and_eq_true] at h
    exact h.2

theorem noDoubleSpace_dropWhile (p : Char → Bool) :
    ∀ l : List Char, noDoubleSpace l = true → noDoubleSpace (l.dropWhile p) = true := by
  intro l
  induction l with
  | nil => intro h; exact h
  | cons c r ih =>
    intro h
    rw [List.dropWhile_cons]
    split
    · exact ih (noDoubleSpace_tail c r h)
    · exact h

theorem noDouble_iff_chain :
    ∀ l : List Char, noDoubleSpace l = true ↔ l.Chain' (fun a b => ¬(a = ' ' ∧ b = ' ')) := by
  intro l
  induction l with
  | nil => simp [noDoubleSpace]
  | cons c tail ih =>
    cases tail with
    | nil => simp [noDoubleSpace]
    | cons d r =>
      rw [List.chain'_cons, ← ih]
      simp only [noDoubleSpace, Bool.and_eq_true, Bool.not_eq_true']
      constructor
      · rintro ⟨h1, h2⟩
        refine ⟨?_, h2⟩
        rintro ⟨rfl, rfl⟩
        simp at h1
      · rintro ⟨h1, h2⟩
        refine ⟨?_, h2⟩
        by_cases hc : c = ' '
        · by_cases hd2 : d = ' '
          · exact absurd ⟨hc, hd2⟩ h1
          · simp [hd2]
        · simp [hc]

theorem noDoubleSpace_reverse (l : List Char) (h : noDoubleSpace l = true) :
    noDoubleSpace l.reverse = true := by
  rw [noDouble_iff_chain] at h ⊢
  rw [List.chain'_reverse]
  exact List.Chain'.imp (fun a b hab => fun hp => hab ⟨hp.2, hp.1⟩) h

theorem stripWs_subset (l : List Char) : ∀ c ∈ stripWs l, c ∈ l := by
  intro c hc
  unfold stripWs at hc
  rw [List.mem_reverse] at hc
  have h1 := (List.dropWhile_suffix pyIsSpace).subset hc
  rw [List.mem_reverse] at h1
  exact (List.dropWhile_suffix pyIsSpace).subset h1

theorem stripWs_noDouble (l : List Char) (h : noDoubleSpace l = true) :
    noDoubleSpace (stripWs l) = true := by
  unfold stripWs
  exact noDoubleSpace_reverse _
    (noDoubleSpace_dropWhile _ _ (noDoubleSpace_reverse _ (noDoubleSpace_dropWhile _ _ h)))

theorem head_dropWhile_not (p : Char → Bool) :
    ∀ l : List Char, ∀ c, (l.dropWhile p).head? = some c → p c = false := by
  intro l
  induction l with
  | nil => intro c hc; simp at hc
  | cons a r ih =>
    intro c hc
    rw [List.dropWhile_cons] at hc
    split at hc
    · exact ih c hc
    · next hpa =>
      simp only [List.head?_cons, Option.some.injEq] at hc
      rw [← hc]
      simpa using hpa

theorem stripWs_head (l : List Char) :
    ∀ c, (stripWs l).head? = some c → pyIsSpace c = false := by
  intro c hc
  have hpre : stripWs l <+: l.dropWhile pyIsSpace := by
    unfold stripWs
    have hs := (List.dropWhile_suffix (l := (l.dropWhile pyIsSpace).reverse) pyIsSpace).reverse
    rwa [List.reverse_reverse] at hs
  obtain ⟨t, ht⟩ := hpre
  cases hsw : stripWs l with
  | nil => rw [hsw] at hc; simp at hc
  | cons x xs =>
    rw [hsw] at hc ht
    simp only [List.head?_cons, Option.some.injEq] at hc
    apply head_dropWhile_not pyIsSpace l
    rw [← ht, ← hc]
    rfl

theorem stripWs_last (l : List Char) :
    ∀ c, (stripWs l).getLast? = some c → pyIsSpace c = false := by
  intro c hc
  have h1 : (stripWs l).reverse.head? = some c := by
    rw [List.head?_reverse]
    exact hc
  rw [show (stripWs l).reverse =
      (l.dropWhile pyIsSpace).reverse.dropWhile pyIsSpace from by
    unfold stripWs
    rw [List.reverse_reverse]] at h1
  exact head_dropWhile_not _ _ c h1

theorem collapseWs_id :
    ∀ l : List Char, (∀ c ∈ l, pyIsSpace c = true → c = ' ') →
      noDoubleSpace l = true → collapseWs l = l := by
  intro l
  induction l with
  | nil => intro _ _; rfl
  | cons a tail ih =>
    cases tail with
    | nil =>
      intro hsp _
      by_cases ha : pyIsSpace a
      · have ha' : a = ' ' := hsp a (by simp) ha
        simp [collapseWs, ha, ha']
      · simp [collapseWs, ha]
    | cons d r =>
      intro hsp hnd
      have hih := ih (fun c hc hcs => hsp c (List.mem_cons_of_mem a hc) hcs)
        (noDoubleSpace_tail a _ hnd)
      by_cases ha : pyIsSpace a
      · have ha' : a = ' ' := hsp a (by simp) ha
        by_cases hd2 : pyIsSpace d
        · have hd' : d = ' ' := hsp d (by simp) hd2
          exfalso
          rw [ha', hd'] at hnd
          simp [noDoubleSpace] at hnd
        · rw [show collapseWs (a :: d :: r) = ' ' :: collapseWs (d :: r) from by
            simp [collapseWs, ha, hd2]]
          rw [hih, ha']
      · rw [show collapseWs (a :: d :: r) = a :: collapseWs (d :: r) from by
          simp [collapseWs, ha]]
        rw [hih]

theorem dropWhile_id_of_head (p : Char → Bool) (l : List Char)
    (h : ∀ c, l.head? = some c → p c = false) : l.dropWhile p = l := by
  cases l with
  | nil => rfl
  | cons a r =>
    rw [List.dropWhile_cons, if_neg (by simp [h a rfl])]

theorem stripWs_id (l : List Char)
    (hh : ∀ c, l.head? = some c → pyIsSpace c = false)
    (hl : ∀ c, l.getLast? = some c → pyIsSpace c = false) : stripWs l = l := by
  unfold stripWs
  rw [dropWhile_id_of_head pyIsSpace l hh]
  rw [dropWhile_id_of_head pyIsSpace l.reverse
    (fun c hc => hl c (by rwa [List.head?_reverse] at hc))]
  exact List.reverse_reverse l

theorem preprocess_text_ne (t : String) (ht : ¬ t = "") :
    preprocess_text t =
      String.mk (stripWs (collapseWs ((t.data.map pyLowerChar).filter keptChar))) := by
  unfold preprocess_text
  rw [if_neg ht]

theorem map_lower_id (l : List Char) (h : ∀ c ∈ l, pyLowerChar c = c) :
    l.map pyLowerChar = l := by
  induction l with
  | nil => rfl
  | cons a r ih =>
    rw [List.map_cons, h a (by simp), ih (fun c hc => h c (by simp [hc]))]

theorem preprocessPipeline_spec (l : List Char) :
    (∀ c ∈ stripWs (collapseWs ((l.map pyLowerChar).filter keptChar)),
      (pyIsWord c || isHangulChar c || c == ' ') = true ∧ pyLowerChar c = c ∧
        (pyIsSpace c = true → c = ' ')) ∧
    noDoubleSpace (stripWs (collapseWs ((l.map pyLowerChar).filter keptChar))) = true ∧
    (∀ c, (stripWs (collapseWs ((l.map pyLowerChar).filter keptChar))).head? = some c →
      pyIsSpace c = false) ∧
    (∀ c, (stripWs (collapseWs ((l.map pyLowerChar).filter keptChar))).getLast? = some c →
      pyIsSpace c = false) := by
  set mid := (l.map pyLowerChar).filter keptChar with hmid
  have hmidc : ∀ c ∈ mid, keptChar c = true ∧ pyLowerChar c = c := by
    intro c hc
    have h1 := List.mem_filter.mp hc
    exact ⟨h1.2, mem_map_lower_fixed l c h1.1⟩
  refine ⟨?_, stripWs_noDouble _ (collapseWs_noDouble mid), stripWs_head _, stripWs_last _⟩
  intro c hc
  rcases collapseWs_chars mid c (stripWs_subset _ c hc) with h1 | ⟨h2, h3⟩
  · subst h1
    exact ⟨by decide, by decide, fun _ => rfl⟩
  · obtain ⟨hkept, hlow⟩ := hmidc c h2
    refine ⟨?_, hlow, fun hsp => absurd hsp (by simp [h3])⟩
    unfold keptChar at hkept
    simp only [Bool.or_eq_true] at hkept ⊢
    rcases hkept with (hw | hs) | hh
    · exact Or.inl (Or.inl hw)
    · rw [h3] at hs
      exact absurd hs (by simp)
    · exact Or.inl (Or.inr hh)

/-- C9 (confirmed): `preprocess_text` is idempotent; its result contains only
word characters, Hangul characters and single (never doubled) internal
spaces, all case-fixed under lowering; it has no leading or trailing
whitespace; and the empty input yields the empty string. -/
theorem preprocess_text_spec (s : String) :
    preprocess_text (preprocess_text s) = preprocess_text s ∧
    (∀ c ∈ (preprocess_text s).data,
      (pyIsWord c || isHangulChar c || c == ' ') = true ∧ pyLowerChar c = c) ∧
    noDoubleSpace (preprocess_text s).data = true ∧
    (∀ c, (preprocess_text s).data.head? = some c → pyIsSpace c = false) ∧
    (∀ c, (preprocess_text s).data.getLast? = some c → pyIsSpace c = false) ∧
    preprocess_text "" = "" := by
  by_cases hs : s = ""
  · subst hs
    exact ⟨rfl, by simp [preprocess_text], by simp [preprocess_text, noDoubleSpace], 
      by simp [preprocess_text], by simp [preprocess_text], rfl⟩
  · have hdef : preprocess_text s =
        String.mk (stripWs (collapseWs ((s.data.map pyLowerChar).filter keptChar))) :=
      preprocess_text_ne s hs
    obtain ⟨hchars, hnd, hhead, hlast⟩ := preprocessPipeline_spec s.data
    have hdata : (preprocess_text s).data =
        stripWs (collapseWs ((s.data.map pyLowerChar).filter keptChar)) := by
      rw [hdef]
    refine ⟨?_, ?_, ?_, ?_, ?_, rfl⟩
    · by_cases hr : preprocess_text s = ""
      · rw [hr]
        with_unfolding_all rfl
      · have hdef2 : preprocess_text (preprocess_text s) =
            String.mk (stripWs (collapseWs
              (((preprocess_text s).data.map pyLowerChar).filter keptChar))) :=
          preprocess_text_ne _ hr
        rw [hdef2, hdata]
        set out := stripWs (collapseWs ((s.data.map pyLowerChar).filter keptChar)) with hout
        have hm : out.map pyLowerChar = out :=
          map_lower_id out (fun c hc => (hchars c hc).2.1)
        have hf : out.filter keptChar = out := by
          apply List.filter_eq_self.mpr
          intro c hc
          have h1 := (hchars c hc).1
          unfold keptChar
          simp only [Bool.or_eq_true] at h1 ⊢
          rcases h1 with (hw | hh) | hsp
          · exact Or.inl (Or.inl hw)
          · exact Or.inr hh
          · refine Or.inl (Or.inr ?_)
            have : c = ' ' := by simpa using hsp
            rw [this]
            decide
        have hcoll : collapseWs out = out :=
          collapseWs_id out (fun c hc hcs => (hchars c hc).2.2 hcs) hnd
        have hstr : stripWs out = out := stripWs_id out hhead hlast
        rw [hm, hf, hcoll, hstr, hdef]
    · intro c hc
      rw [hdata] at hc
      exact ⟨(hchars c hc).1, (hchars c hc).2.1⟩
    · rw [hdata]
      exact hnd
    · intro c hc
      rw [hdata] at hc
      exact hhead c hc
    · intro c hc
      rw [hdata] at hc
      exact hlast c hc

theorem preprocess_text_spec_witness :
    preprocess_text (preprocess_text "  Ab  c!! ") = preprocess_text "  Ab  c!! " ∧
    preprocess_text "  Ab  c!! " = "ab c" :=
  ⟨(preprocess_text_spec "  Ab  c!! ").1, by with_unfolding_all rfl⟩

/-! ## C10: report shape -/

/-- Whether an `Except` computation succeeded. -/
def isOkE {α : Type} : Except PyErr α → Bool
  | .ok _ => true
  | .error _ => false

/-- A fully-populated sample comment. -/
def c10c : PyComment :=
  { comment_id := some "1", text := some "hi", author := some "bob"
    is_reply := none, parent_id := none, like_count := none, timestamp := none }

/-- C10 (confirmed): whenever `process_comments` returns a report, its shape
depends on the input: on the empty input `spam_patterns` is the empty mapping
and there is no `processing_summary` key (both modelled by `none`), while on
every non-empty input `spam_patterns` is a populated `SpamPatterns` record and
`processing_summary` is present (both `some`). -/
theorem process_comments_shape (st : ℚ) (mdc : Nat) (comments : List PyComment)
    (r : ProcessingReport) (h : process_comments st mdc comments = .ok r) :
    (comments = [] → r.spam_patterns = none ∧ r.processing_summary = none) ∧
    (comments ≠ [] →
      r.spam_patterns.isSome = true ∧ r.processing_summary.isSome = true) := by
  constructor
  · rintro rfl
    unfold process_comments at h
    simp only [List.isEmpty_nil, if_true] at h
    injection h with h'
    rw [← h']
    exact ⟨rfl, rfl⟩
  · intro hne
    unfold process_comments at h
    rw [if_neg (by simpa [List.isEmpty_iff] using hne)] at h
    cases h1 : analyze_spam_patterns st mdc comments with
    | error e =>
      rw [h1, pyBindError] at h
      exact Except.noConfusion h
    | ok sp =>
      rw [h1, pyBindOk] at h
      cases h2 : get_duplicate_groups st mdc comments with
      | error e =>
        rw [h2, pyBindError] at h
        exact Except.noConfusion h
      | ok dg =>
        rw [h2, pyBindOk] at h
        cases h3 : get_suspicious_comment_ids st mdc comments with
        | error e =>
          rw [h3, pyBindError] at h
          exact Except.noConfusion h
        | ok ids =>
          rw [h3, pyBindOk, pyPure] at h
          injection h with h'
          rw [← h']
          exact ⟨rfl, rfl⟩

theorem process_comments_shape_witness :
    (∃ r, process_comments defaultSimilarityThreshold defaultMinDuplicateCount [c10c] = .ok r ∧
      r.spam_patterns.isSome = true ∧ r.processing_summary.isSome = true) ∧
    ∃ r0, process_comments defaultSimilarityThreshold defaultMinDuplicateCount [] = .ok r0 ∧
      r0.spam_patterns = none ∧ r0.processing_summary = none := by
  constructor
  · have hok : isOkE
        (process_comments defaultSimilarityThreshold defaultMinDuplicateCount [c10c]) = true := by
      with_unfolding_all rfl
    cases hres : process_comments defaultSimilarityThreshold defaultMinDuplicateCount [c10c] with
    | error e =>
      rw [hres] at hok
      simp [isOkE] at hok
    | ok r =>
      exact ⟨r, rfl,
        (process_comments_shape defaultSimilarityThreshold defaultMinDuplicateCount
          [c10c] r hres).2 (by simp)⟩
  · cases hres : process_comments defaultSimilarityThreshold defaultMinDuplicateCount [] with
    | error e => exact Except.noConfusion hres
    | ok r0 =>
      exact ⟨r0, rfl,
        (process_comments_shape defaultSimilarityThreshold defaultMinDuplicateCount
          [] r0 hres).1 rfl⟩

end YTC
